import Mathlib

/-
  A shallow embedding of the SSINS match filter (src/SSINS/match_filter.py)
  together with the parts of the NoiseSpectrum (INS) collaborator interface
  that the filter reads and writes.  Masked numpy arrays are embedded as a
  rational value function paired with a Boolean mask function over the index
  cube [0, Ntimes) x [0, Nfreqs) x [0, Npols); masked entries are excluded
  from every reduction, as in numpy masked-array semantics.  Significance
  values of the form |m| * sqrt(n) are kept exactly as the pair (|m|, n); for
  nonnegative m the float comparisons of the source coincide with comparisons
  of m * m * n, which is how the embedding compares them.
-/

set_option linter.unusedVariables false

attribute [local semireducible] Rat.add Rat.mul Rat.inv Rat.sub

namespace SSINS

/-- A half-open index range [start, stop), embedding the Python
    `slice(start, stop)` objects the filter builds (nonnegative bounds). -/
structure Slice where
  start : Nat
  stop : Nat
deriving DecidableEq

/-- Membership of an index in a slice, as realised by numpy basic slicing. -/
def inSlc (s : Slice) (i : Nat) : Bool := decide (s.start ≤ i) && decide (i < s.stop)

/-- A significance value |m| * sqrt(n), with 0 ≤ m by construction.  The
    source compares such values with float `<`; for nonnegative m those
    comparisons coincide with comparisons of the exact key m * m * n. -/
structure SigV where
  m : ℚ
  n : Nat
deriving DecidableEq

/-- The exact comparison key of a significance value: its square. -/
def SigV.key (a : SigV) : ℚ := a.m * a.m * (a.n : ℚ)

/-- `sig > self.sig_thresh[shape]` (line 145) for sig = |m|*sqrt(n) ≥ 0. -/
def sigGtThresh (a : SigV) (thr : ℚ) : Bool :=
  if thr < 0 then true else decide (thr * thr < a.key)

/-- `sig > sig_max` (line 146): strict comparison of significance values. -/
def keyLt (b a : SigV) : Bool := decide (b.key < a.key)

/-- The ordering used by `(sliced_arr / self.sig_thresh[shape]).argmax()`
    (line 140): dividing by a fixed positive threshold preserves the order
    and a negative threshold flips it.  For a zero threshold the source
    degenerates to float inf/nan arithmetic; the embedding then never
    replaces the running maximum (theorems about this argmax assume a
    nonzero threshold, and the data model requires positive ones). -/
def ratioLt (thr : ℚ) (b a : SigV) : Bool :=
  if 0 < thr then decide (b.key < a.key)
  else if thr < 0 then decide (a.key < b.key)
  else false

/-- A four-tuple flagging event `(t_slice, f_slice, shape, sig)` as built on
    lines 173 and 219-220; the sample-threshold event carries sig = None. -/
structure Event4 where
  t : Slice
  f : Slice
  shape : String
  sig : Option SigV
deriving DecidableEq

/-- An entry of `INS.match_events`: the flagging loop and the
    sample-threshold test append four-tuples, `freq_broadcast` appends
    three-tuples (line 249). -/
inductive LogEvent where
  | ev4 (t : Slice) (f : Slice) (shape : String) (sig : Option SigV)
  | ev3 (t : Slice) (f : Slice) (shape : String)
deriving DecidableEq

/-- The externally owned NoiseSpectrum object: `metric_array` (ma) and
    `metric_ms` (ms) as value/mask pairs, the `sig_array` provenance array,
    the append-only event log and the time-sample count. -/
structure INS where
  Ntimes : Nat
  Nfreqs : Nat
  Npols : Nat
  maVal : Nat → Nat → Nat → ℚ
  maMask : Nat → Nat → Nat → Bool
  msVal : Nat → Nat → Nat → ℚ
  msMask : Nat → Nat → Nat → Bool
  sigArr : Nat → Nat → Nat → ℚ
  match_events : List LogEvent

/-- All in-bounds cube indices, time-major (numpy C order). -/
def allIdx (ins : INS) : List (Nat × Nat × Nat) :=
  (List.range ins.Ntimes).flatMap (fun t =>
    (List.range ins.Nfreqs).flatMap (fun f =>
      (List.range ins.Npols).map (fun p => (t, f, p))))

/-- Number of flagged (masked) cells of `metric_array`. -/
def flaggedCount (ins : INS) : Nat :=
  (allIdx ins).countP (fun c => ins.maMask c.1 c.2.1 c.2.2)

/-- Size of the cube, used as the fuel bound of the flagging loop. -/
def totalCells (ins : INS) : Nat := (allIdx ins).length

/-- `INS.metric_array[t_slc, f_slc] = np.ma.masked` (all polarizations). -/
def maskMA (ins : INS) (ts fs : Slice) : INS :=
  { ins with maMask := fun t f p => ins.maMask t f p || (inSlc ts t && inSlc fs f) }

/-- Lines 176-177: write the current `metric_ms` values into `sig_array` at
    the entries of the event region that `metric_ms` does not mask. -/
def sigArrWrite (ins : INS) (ts fs : Slice) : INS :=
  { ins with sigArr := fun t f p =>
      if inSlc ts t && inSlc fs f && !ins.msMask t f p then ins.msVal t f p
      else ins.sigArr t f p }

/-- `INS.match_events.append(e)`. -/
def addEvent (ins : INS) (e : LogEvent) : INS :=
  { ins with match_events := ins.match_events ++ [e] }

/-- The in-bounds channel indices a slice selects (numpy clips the stop). -/
def chanIdx (ins : INS) (s : Slice) : List Nat :=
  (List.range ins.Nfreqs).filter (fun f => inSlc s f)

/-- Modelled from the spec: `INS.mean_subtract(freq_slice=...)` lives in the
    repository file incoherent_noise_spectrum.py, which is not under src/.
    Per the spec (data model and iterative-flagger sections) it recomputes
    the mean-subtracted z-score on the given channel range from the current
    `metric_array` masking: a recomputed entry is masked exactly where its
    `metric_array` entry is masked (a channel statistic is undefined only
    when every time sample of the channel is masked, and then every entry of
    the channel is masked already), and an unmasked entry's value is its
    `metric_array` value minus the mean of the currently unmasked time
    samples of its (channel, polarization). -/
def meanSubtract (ins : INS) (fs : Slice) : INS :=
  { ins with
    msVal := fun t f p =>
      if inSlc fs f then
        (let ts := (List.range ins.Ntimes).filter (fun u => !ins.maMask u f p)
         if ts.length = 0 then ins.maVal t f p
         else ins.maVal t f p - (ts.map (fun u => ins.maVal u f p)).sum / (ts.length : ℚ))
      else ins.msVal t f p,
    msMask := fun t f p => if inSlc fs f then ins.maMask t f p else ins.msMask t f p }

/-- Line 184: `np.all(INS.metric_array[:, f_max, 0].mask)` (an empty
    selection gives True, as numpy's all does). -/
def allMaskedP0 (ins : INS) (fs : Slice) : Bool :=
  (List.range ins.Ntimes).all (fun t => (chanIdx ins fs).all (fun f => ins.maMask t f 0))

/-- Line 187: `INS.metric_ms[:, f_max] = np.ma.masked`. -/
def maskMS (ins : INS) (fs : Slice) : INS :=
  { ins with msMask := fun t f p => if inSlc fs f then true else ins.msMask t f p }

/-- Lines 184-187 of apply_match_test: recompute the affected channel range,
    or mask it outright when its representative polarization is fully
    masked. -/
def recompute (ins : INS) (fs : Slice) : INS :=
  if !(allMaskedP0 ins fs) then meanSubtract ins fs else maskMS ins fs

/-- Lines 188-189: the final backfill of `sig_array` at the entries
    `metric_ms` does not mask. -/
def backfill (ins : INS) : INS :=
  { ins with sigArr := fun t f p =>
      if !ins.msMask t f p then ins.msVal t f p else ins.sigArr t f p }

/-- The filter's state after construction: the frequency axis, the resolved
    shape ranges in configured order (a `none` range is the narrow
    sentinel), the per-shape thresholds, the sample threshold, and the
    sub-band broadcasting tables. -/
structure MFState where
  freq_array : List ℚ
  slice_dict : List (String × Option Slice)
  sig_thresh : String → ℚ
  N_samp_thresh : ℚ
  broadcast_dict : Option (List (String × (ℚ × ℚ)))
  broadcast_slc_dict : List (String × Slice)

/-- One step of a numpy argmax over optional values: a `none` (masked) entry
    is filled below every real value, and only a strictly greater value
    replaces the running maximum, so ties keep the first index. -/
def amStep (lt : SigV → SigV → Bool) (v : Nat → Option SigV)
    (best : Nat × Option SigV) (k : Nat) : Nat × Option SigV :=
  match v k with
  | none => best
  | some a =>
    match best.2 with
    | none => (k, some a)
    | some b => if lt b a then (k, some a) else best

/-- numpy argmax over n flat entries (index and value found). -/
def argmaxO (lt : SigV → SigV → Bool) (n : Nat) (v : Nat → Option SigV) :
    Nat × Option SigV :=
  (List.range n).foldl (amStep lt v) (0, none)

/-- Count of unmasked channels of the range at one (time, polarization)
    (line 137). -/
def nCount (ins : INS) (s : Slice) (t p : Nat) : Nat :=
  ((chanIdx ins s).filter (fun f => !ins.msMask t f p)).length

/-- Line 139: |mean over the unmasked channels of the range| * sqrt(N);
    `none` when every channel of the range is masked (a masked mean, which
    fails every subsequent comparison). -/
def slicedSig (ins : INS) (s : Slice) (t p : Nat) : Option SigV :=
  let fs := (chanIdx ins s).filter (fun f => !ins.msMask t f p)
  if fs.length = 0 then none
  else some ⟨|(fs.map (fun f => ins.msVal t f p)).sum / (fs.length : ℚ)|, fs.length⟩

/-- Cell value for the narrow search (lines 130-133): |metric_ms| with the
    mask preserved, flattened in C order. -/
def narrowVal (ins : INS) (k : Nat) : Option SigV :=
  let t := k / (ins.Nfreqs * ins.Npols)
  let f := (k / ins.Npols) % ins.Nfreqs
  let p := k % ins.Npols
  if ins.msMask t f p then none else some ⟨|ins.msVal t f p|, 1⟩

/-- Flat (time, polarization) value array of one generic shape (line 139),
    in C order. -/
def genVal (ins : INS) (s : Slice) (k : Nat) : Option SigV :=
  slicedSig ins s (k / ins.Npols) (k % ins.Npols)

/-- One shape's candidate outlier inside match_test (lines 129-144):
    (time slice, channel slice, significance); a `none` significance is a
    masked sig, which fails both comparisons of lines 145-146.  The narrow
    shape is dispatched on its name, as the source does. -/
def shapeCandidate (mf : MFState) (ins : INS) (sh : String) (oslc : Option Slice) :
    Slice × Slice × Option SigV :=
  if sh = "narrow" then
    let k := (argmaxO keyLt (ins.Ntimes * ins.Nfreqs * ins.Npols) (narrowVal ins)).1
    let t := k / (ins.Nfreqs * ins.Npols)
    let f := (k / ins.Npols) % ins.Nfreqs
    let p := k % ins.Npols
    (⟨t, t + 1⟩, ⟨f, f + 1⟩,
     if ins.msMask t f p then none else some ⟨|ins.msVal t f p|, 1⟩)
  else
    match oslc with
    | some slc =>
      let k := (argmaxO (ratioLt (mf.sig_thresh sh)) (ins.Ntimes * ins.Npols)
                  (genVal ins slc)).1
      (⟨k / ins.Npols, k / ins.Npols + 1⟩, slc,
       slicedSig ins slc (k / ins.Npols) (k % ins.Npols))
    | none => (⟨0, 0⟩, ⟨0, 0⟩, none)

/-- The champion match_test returns: `(t_max, f_max, sig_max, shape_max)`;
    the sentinel `(None, None, -np.inf, None)` is embedded as `none`. -/
structure Champ where
  t : Slice
  f : Slice
  sig : SigV
  shape : String
deriving DecidableEq

/-- Lines 145-147: eligibility against the shape's own threshold, then
    strict replacement of the running champion. -/
def chooseChamp (mf : MFState) (ins : INS) (acc : Option Champ)
    (e : String × Option Slice) : Option Champ :=
  match (shapeCandidate mf ins e.1 e.2).2.2 with
  | none => acc
  | some sv =>
    if sigGtThresh sv (mf.sig_thresh e.1) then
      match acc with
      | none => some ⟨(shapeCandidate mf ins e.1 e.2).1,
                      (shapeCandidate mf ins e.1 e.2).2.1, sv, e.1⟩
      | some b =>
        if keyLt b.sig sv then
          some ⟨(shapeCandidate mf ins e.1 e.2).1,
                (shapeCandidate mf ins e.1 e.2).2.1, sv, e.1⟩
        else acc
    else acc

/-- match_test (lines 107-148). -/
def matchTest (mf : MFState) (ins : INS) : Option Champ :=
  mf.slice_dict.foldl (chooseChamp mf ins) none

/-- apply_samp_thresh_test (lines 191-225), with Python in-place semantics:
    the (possibly mutated) INS is returned together with the returned event
    and an optional raised exception.  When the test triggers with
    `event_record=False`, line 219 never ran, so `return(new_event)` on line
    225 reads an unassigned local: an UnboundLocalError raised after the
    masking of line 217 already happened.  A zero-width channel range makes
    line 216 divide by zero. -/
def applySampThreshTest (mf : MFState) (ins : INS) (ev : Event4) (record : Bool) :
    INS × Option Event4 × Option String :=
  if (ins.Ntimes : ℚ) < mf.N_samp_thresh then (ins, none, some "ValueError")
  else
    let numChan : Int := (ev.f.stop : Int) - (ev.f.start : Int)
    if numChan = 0 then (ins, none, some "ZeroDivisionError")
    else
      let numFlag : Nat := ((List.range ins.Ntimes).flatMap (fun t =>
        (chanIdx ins ev.f).map (fun f => (t, f)))).countP
          (fun c => ins.maMask c.1 c.2 0)
      let numUnflag : Int := (ins.Ntimes : Int) - (numFlag : Int)
      if (numUnflag : ℚ) / (numChan : ℚ) < mf.N_samp_thresh then
        let i1 := maskMA ins ⟨0, ins.Ntimes⟩ ev.f
        if record then
          (addEvent i1 (.ev4 ⟨0, ins.Ntimes⟩ ev.f ("samp_thresh_" ++ ev.shape) none),
           some ⟨⟨0, ins.Ntimes⟩, ev.f, "samp_thresh_" ++ ev.shape, none⟩, none)
        else (i1, none, some "UnboundLocalError")
      else (ins, some ev, none)

/-- The index set a slice stands for in freq_broadcast (line 244):
    `set(np.arange(slc.stop)[slc])`. -/
def slcSet (s : Slice) : List Nat := (List.range s.stop).filter (fun i => inSlc s i)

/-- Lines 243-249: one sub-band of the freq_broadcast loop: when the index
    sets intersect, mask the sub-band at the event's times (all
    polarizations) and optionally log a three-tuple event. -/
def bcastStep (mf : MFState) (ev : Event4) (record : Bool) (acc : INS)
    (sb : String × Slice) : INS :=
  if (slcSet ev.f).any (fun i => (slcSet sb.2).contains i) then
    (if record then
      addEvent (maskMA acc ev.t sb.2) (.ev3 ev.t sb.2 ("freq_broadcast_" ++ sb.1))
    else maskMA acc ev.t sb.2)
  else acc

/-- freq_broadcast (lines 227-249), with in-place semantics.  The error
    check is `self.broadcast_dict is None` (line 237): an empty-but-present
    sub-band map passes it. -/
def freqBroadcast (mf : MFState) (ins : INS) (ev : Event4) (record : Bool) :
    INS × Option String :=
  if mf.broadcast_dict = none then (ins, some "ValueError")
  else (mf.broadcast_slc_dict.foldl (bcastStep mf ev record) ins, none)

/-- Outcome of one pass of the while body of apply_match_test:
    `done` when the sentinel came back (the final pass, which mutates
    nothing), `again` when a champion was flagged, `err` when an exception
    propagated out of an auxiliary test. -/
inductive StepRes where
  | done
  | again
  | err (e : String)
deriving DecidableEq

/-- Lines 182-187: the optional broadcast followed by the recomputation of
    the affected channel range (`f_max` from match_test). -/
def finishIter (mf : MFState) (record broadF : Bool) (ins : INS) (ev : Event4)
    (fmax : Slice) : INS × StepRes :=
  if broadF then
    match freqBroadcast mf ins ev record with
    | (i5, some e) => (i5, .err e)
    | (i5, none) => (recompute i5 fmax, .again)
  else (recompute ins fmax, .again)

/-- Line 173: the event match_test's champion turns into. -/
def stepEvent (c : Champ) : Event4 := ⟨c.t, c.f, c.shape, some c.sig⟩

/-- Lines 174-179: mask the champion region, record the pre-flag z-scores in
    `sig_array`, and optionally log the event. -/
def stepFlag (record : Bool) (ins : INS) (c : Champ) : INS :=
  if record then
    addEvent (sigArrWrite (maskMA ins c.t c.f) c.t c.f)
      (.ev4 c.t c.f c.shape (some c.sig))
  else sigArrWrite (maskMA ins c.t c.f) c.t c.f

/-- One pass of the while body of apply_match_test (lines 168-187).  Line
    180 guards the sample-threshold test by `apply_samp_thresh` and the
    truthiness of `N_samp_thresh`; the test may rewrite the event used by
    the broadcast, while the recomputation uses `f_max` from match_test. -/
def matchTestStep (mf : MFState) (record sampF broadF : Bool) (ins : INS) :
    INS × StepRes :=
  match matchTest mf ins with
  | none => (ins, .done)
  | some c =>
    if sampF && !(decide (mf.N_samp_thresh = 0)) then
      match applySampThreshTest mf (stepFlag record ins c) (stepEvent c) record with
      | (i4, _, some e) => (i4, .err e)
      | (i4, oev, none) =>
        finishIter mf record broadF i4 (oev.getD (stepEvent c)) c.f
    else finishIter mf record broadF (stepFlag record ins c) (stepEvent c) c.f

/-- The while loop of apply_match_test, driven by fuel; `some "fuel"` marks
    exhausted fuel (the wrapper below supplies enough for any run in which
    every pass adds a flag). -/
def applyFuel (mf : MFState) (record sampF broadF : Bool) :
    Nat → INS → INS × Option String
  | 0, ins => (ins, some "fuel")
  | Nat.succ k, ins =>
    match matchTestStep mf record sampF broadF ins with
    | (i, .done) => (backfill i, none)
    | (i, .again) => applyFuel mf record sampF broadF k i
    | (i, .err e) => (i, some e)

/-- apply_match_test (lines 150-189). -/
def applyMatchTest (mf : MFState) (record sampF broadF : Bool) (ins : INS) :
    INS × Option String :=
  applyFuel mf record sampF broadF (totalCells ins + 1) ins

/-- One invocation of a filter operation, for stating facts about arbitrary
    operation sequences (match_test mutates nothing). -/
inductive FilterOp where
  | matchT
  | applyMatch (record sampF broadF : Bool)
  | sampT (ev : Event4) (record : Bool)
  | broadcast (ev : Event4) (record : Bool)

/-- Run one operation, keeping the (possibly partially) mutated state that
    Python's in-place writes leave behind even when an exception follows. -/
def runOp (mf : MFState) (ins : INS) : FilterOp → INS
  | .matchT => ins
  | .applyMatch r s b => (applyMatchTest mf r s b ins).1
  | .sampT ev r => (applySampThreshTest mf ins ev r).1
  | .broadcast ev r => (freqBroadcast mf ins ev r).1

/-- Run a sequence of filter operations. -/
def runOps (mf : MFState) (ops : List FilterOp) (ins : INS) : INS :=
  ops.foldl (runOp mf) ins

/-- One step of a numpy argmin: only a strictly smaller value replaces the
    running minimum, so ties keep the first index. -/
def aminStep (v : Nat → ℚ) (best : Nat × Option ℚ) (k : Nat) : Nat × Option ℚ :=
  match best.2 with
  | none => (k, some (v k))
  | some b => if v k < b then (k, some (v k)) else best

/-- numpy argmin over n entries (the first minimising index), line 92. -/
def argminQ (n : Nat) (v : Nat → ℚ) : Nat :=
  ((List.range n).foldl (aminStep v) (0, none)).1

/-- `min(self.freq_array)` over the nonempty frequency axis. -/
def freqMin (l : List ℚ) : ℚ := l.foldl min (l.headD 0)

/-- `max(self.freq_array)` over the nonempty frequency axis. -/
def freqMax (l : List ℚ) : ℚ := l.foldl max (l.headD 0)

/-- Element lookup into the frequency axis (always in bounds where used). -/
def nthD (l : List ℚ) (i : Nat) : ℚ := l.getD i 0

/-- Lines 90-99: resolve one named interval against the frequency axis:
    coverage check, nearest-channel search at both bounds, then the two edge
    corrections.  `min`/`max` of the two-element bounds list appear as in
    the source. -/
def resolveShape (freq : List ℚ) (b : ℚ × ℚ) : Option Slice :=
  let lo := min b.1 b.2
  let hi := max b.1 b.2
  if freqMin freq ≤ lo ∨ hi ≤ freqMax freq then
    let minChan := argminQ freq.length (fun i => |nthD freq i - lo|)
    let maxChan := argminQ freq.length (fun i => |nthD freq i - hi|)
    some ⟨if 0 < nthD freq minChan - lo ∧ 0 < minChan then minChan - 1 else minChan,
          if nthD freq maxChan - hi ≤ 0 then maxChan + 1 else maxChan⟩
  else none

/-- _shape_slicer (lines 72-105): resolved named shapes in insertion order,
    a silently omitted shape for a failed coverage check, then the narrow
    sentinel, then the full-band streak. -/
def shapeSlicer (freq : List ℚ) (d : List (String × (ℚ × ℚ)))
    (narrow streak : Bool) : List (String × Option Slice) :=
  (d.filterMap (fun e => (resolveShape freq e.2).map (fun s => (e.1, some s))))
    ++ (if narrow then [("narrow", (none : Option Slice))] else [])
    ++ (if streak then [("streak", some ⟨0, freq.length⟩)] else [])

/-- The `sig_thresh` constructor argument: a scalar broadcast to every
    resolved shape, or an explicit per-shape mapping. -/
inductive SigThreshIn where
  | scalar (q : ℚ)
  | dict (m : List (String × ℚ))

/-- Line 72: the `_shape_slicer` signature is
    `(self, narrow, streak, input_dict="shape_dict")`; it accepts no
    `check_overlap` keyword. -/
def shapeSlicerAcceptsCheckOverlap : Bool := false

/-- Dictionary lookup for the threshold mapping. -/
def lookupStr (m : List (String × ℚ)) (sh : String) : Option ℚ :=
  (m.find? (fun e => e.1 = sh)).map (fun e => e.2)

/-- MF.__init__ (lines 15-70).  The empty-shape check (line 41), the shape
    resolution (line 53) and the threshold checks (lines 55-63) run first;
    line 67 then calls `self._shape_slicer(False, broadcast_streak,
    input_dict="broadcast_dict", check_overlap=True)`, passing a keyword the
    line-72 signature does not accept, so construction ends in a TypeError
    once the earlier checks pass. -/
def mfInit (freq : List ℚ) (sig : SigThreshIn)
    (shape_dict : List (String × (ℚ × ℚ))) (nSamp : ℚ) (narrow streak : Bool)
    (broadcast_dict : Option (List (String × (ℚ × ℚ))))
    (broadcast_streak : Bool) : Except String MFState :=
  if shape_dict = [] ∧ narrow = false ∧ streak = false then
    .error "ValueError: no shapes"
  else
    let slcd := shapeSlicer freq shape_dict narrow streak
    let thrOk : Except String (String → ℚ) :=
      match sig with
      | .scalar q => .ok (fun _ => q)
      | .dict m =>
        if slcd.all (fun e => (lookupStr m e.1).isSome) then
          .ok (fun sh => (lookupStr m sh).getD 0)
        else .error "KeyError: shape has no sig_thresh"
    match thrOk with
    | .error e => .error e
    | .ok thr =>
      if shapeSlicerAcceptsCheckOverlap then
        .ok { freq_array := freq, slice_dict := slcd, sig_thresh := thr,
              N_samp_thresh := nSamp, broadcast_dict := broadcast_dict,
              broadcast_slc_dict :=
                (shapeSlicer freq (broadcast_dict.getD []) false
                    broadcast_streak).filterMap
                  (fun e => e.2.map (fun s => (e.1, s))) }
      else .error "TypeError: unexpected keyword argument check_overlap"

/-- The NoiseSpectrum masking discipline of the spec data model:
    `metric_ms` is masked wherever `metric_array` is. -/
def maskDiscipline (ins : INS) : Prop :=
  ∀ t < ins.Ntimes, ∀ f < ins.Nfreqs, ∀ p < ins.Npols,
    ins.maMask t f p = true → ins.msMask t f p = true

/-- A shape-table entry yields an eligible candidate of significance sv. -/
def elig (mf : MFState) (ins : INS) (e : String × Option Slice) (sv : SigV) : Prop :=
  (shapeCandidate mf ins e.1 e.2).2.2 = some sv ∧
    sigGtThresh sv (mf.sig_thresh e.1) = true

/-- A benign 1x1x1 NoiseSpectrum: one unmasked cell of value 1. -/
def exIns1 : INS where
  Ntimes := 1
  Nfreqs := 1
  Npols := 1
  maVal := fun _ _ _ => 1
  maMask := fun _ _ _ => false
  msVal := fun _ _ _ => 1
  msMask := fun _ _ _ => false
  sigArr := fun _ _ _ => 0
  match_events := []

/-- A narrow-only filter with threshold 5 and no sub-bands. -/
def exMF1 : MFState where
  freq_array := [100, 200]
  slice_dict := [("narrow", none)]
  sig_thresh := fun _ => 5
  N_samp_thresh := 0
  broadcast_dict := none
  broadcast_slc_dict := []

/-- A 2x2x1 z-score cube whose values are 10 and 5 at time 0 and 0 at
    time 1, fully unmasked. -/
def exInsC5 : INS where
  Ntimes := 2
  Nfreqs := 2
  Npols := 1
  maVal := fun t f _ => if t = 0 ∧ f = 0 then 10 else if t = 0 ∧ f = 1 then 5 else 0
  maMask := fun _ _ _ => false
  msVal := fun t f _ => if t = 0 ∧ f = 0 then 10 else if t = 0 ∧ f = 1 then 5 else 0
  msMask := fun _ _ _ => false
  sigArr := fun _ _ _ => 0
  match_events := []

/-- A narrow-only filter with threshold 1 and one sub-band spanning both
    channels, for broadcasting. -/
def exMFb : MFState where
  freq_array := [100, 200]
  slice_dict := [("narrow", none)]
  sig_thresh := fun _ => 1
  N_samp_thresh := 0
  broadcast_dict := some [("sb", (100, 200))]
  broadcast_slc_dict := [("sb", ⟨0, 2⟩)]

/-- A narrow-only filter with threshold 1 and no sub-bands. -/
def exMFnb : MFState where
  freq_array := [100, 200]
  slice_dict := [("narrow", none)]
  sig_thresh := fun _ => 1
  N_samp_thresh := 0
  broadcast_dict := none
  broadcast_slc_dict := []

/-- A 2x1x1 NoiseSpectrum whose first time sample is already masked. -/
def exInsSamp : INS where
  Ntimes := 2
  Nfreqs := 1
  Npols := 1
  maVal := fun _ _ _ => 1
  maMask := fun t _ _ => t == 0
  msVal := fun _ _ _ => 1
  msMask := fun t _ _ => t == 0
  sigArr := fun _ _ _ => 0
  match_events := []

/-- A filter whose sample threshold 2 equals the time count of exInsSamp. -/
def exMFsamp : MFState where
  freq_array := [100]
  slice_dict := [("streak", some ⟨0, 1⟩)]
  sig_thresh := fun _ => 5
  N_samp_thresh := 2
  broadcast_dict := none
  broadcast_slc_dict := []

/-- The single-channel streak event handed to the sample-threshold test. -/
def exEvSamp : Event4 := ⟨⟨0, 2⟩, ⟨0, 1⟩, "streak", none⟩

/-- A filter whose sub-band map is present but empty. -/
def exMFempty : MFState where
  freq_array := [100, 200]
  slice_dict := [("narrow", none)]
  sig_thresh := fun _ => 5
  N_samp_thresh := 0
  broadcast_dict := some []
  broadcast_slc_dict := []

/-- A 1x1x1 NoiseSpectrum whose only cell is already flagged. -/
def exInsFlag : INS where
  Ntimes := 1
  Nfreqs := 1
  Npols := 1
  maVal := fun _ _ _ => 1
  maMask := fun _ _ _ => true
  msVal := fun _ _ _ => 1
  msMask := fun _ _ _ => true
  sigArr := fun _ _ _ => 0
  match_events := []

/-- Two single-channel shapes with equal thresholds, for a significance tie. -/
def exMF10 : MFState where
  freq_array := [100, 200]
  slice_dict := [("A", some ⟨0, 1⟩), ("B", some ⟨1, 2⟩)]
  sig_thresh := fun _ => 1
  N_samp_thresh := 0
  broadcast_dict := none
  broadcast_slc_dict := []

/-- A 1x2x1 cube whose two channels hold values 3 and -3: both shapes of
    exMF10 produce eligible candidates of equal raw significance. -/
def exIns10 : INS where
  Ntimes := 1
  Nfreqs := 2
  Npols := 1
  maVal := fun _ f _ => if f = 0 then 3 else -3
  maMask := fun _ _ _ => false
  msVal := fun _ f _ => if f = 0 then 3 else -3
  msMask := fun _ _ _ => false
  sigArr := fun _ _ _ => 0
  match_events := []

/-- The champion the tie resolves to: shape A, iterated first. -/
def exChamp10 : Champ := ⟨⟨0, 1⟩, ⟨0, 1⟩, ⟨3, 1⟩, "A"⟩

instance decMaskDiscipline (ins : INS) : Decidable (maskDiscipline ins) := by
  unfold maskDiscipline; infer_instance

instance decElig (mf : MFState) (ins : INS) (e : String × Option Slice) (sv : SigV) :
    Decidable (elig mf ins e sv) := by
  unfold elig; infer_instance

end SSINS

namespace SSINS

theorem countP_mono_lt {α : Type} (l : List α) (p q : α → Bool)
    (hmono : ∀ a ∈ l, p a = true → q a = true)
    (a0 : α) (ha0 : a0 ∈ l) (hp0 : p a0 = false) (hq0 : q a0 = true) :
    l.countP p < l.countP q := by
  induction l with
  | nil => simp at ha0
  | cons a l ih =>
    have hle : l.countP p ≤ l.countP q :=
      List.countP_mono_left (fun x hx => hmono x (List.mem_cons_of_mem _ hx))
    simp only [List.countP_cons]
    rcases List.mem_cons.mp ha0 with h | h
    · subst h
      simp [hp0, hq0]
      omega
    · have hlt := ih (fun x hx => hmono x (List.mem_cons_of_mem _ hx)) h
      have h1 : (if p a = true then 1 else 0) ≤ (if q a = true then 1 else 0) := by
        by_cases hp : p a = true
        · simp [hp, hmono a (List.mem_cons_self a l) hp]
        · simp [hp]
      omega

theorem argmaxO_fst (lt : SigV → SigV → Bool) (v : Nat → Option SigV) {n : Nat}
    (hn : 0 < n) : (argmaxO lt n v).1 < n := by
  suffices h : ∀ (l : List Nat) (best : Nat × Option SigV), (∀ k ∈ l, k < n) →
      best.1 < n → (l.foldl (amStep lt v) best).1 < n by
    exact h (List.range n) (0, none) (fun k hk => List.mem_range.mp hk) hn
  intro l
  induction l with
  | nil => intro best _ hb; exact hb
  | cons a l ih =>
    intro best hmem hb
    refine ih _ (fun k hk => hmem k (List.mem_cons_of_mem _ hk)) ?_
    unfold amStep
    rcases hva : v a with _ | x
    · simpa using hb
    · rcases hb2 : best.2 with _ | b
      · simpa using hmem a (List.mem_cons_self _ _)
      · by_cases hlt : lt b x = true
        · simp only [hlt, if_true]
          exact hmem a (List.mem_cons_self _ _)
        · simp only [hlt, if_false]
          exact hb

theorem argmaxO_val (lt : SigV → SigV → Bool) (n : Nat) (v : Nat → Option SigV) :
    (argmaxO lt n v).2 = v (argmaxO lt n v).1 ∨
      ((argmaxO lt n v).2 = none ∧ (argmaxO lt n v).1 = 0) := by
  suffices h : ∀ (l : List Nat) (best : Nat × Option SigV),
      (best.2 = v best.1 ∨ (best.2 = none ∧ best.1 = 0)) →
      ((l.foldl (amStep lt v) best).2 = v (l.foldl (amStep lt v) best).1 ∨
        ((l.foldl (amStep lt v) best).2 = none ∧ (l.foldl (amStep lt v) best).1 = 0)) by
    exact h (List.range n) (0, none) (Or.inr ⟨rfl, rfl⟩)
  intro l
  induction l with
  | nil => intro best hb; exact hb
  | cons a l ih =>
    intro best hb
    refine ih _ ?_
    unfold amStep
    rcases hva : v a with _ | x
    · simpa using hb
    · rcases hb2 : best.2 with _ | b
      · simp [hva]
      · by_cases hlt : lt b x = true
        · simp [hlt, hva]
        · simp only [hlt, if_false]
          exact hb

theorem argmaxO_none (lt : SigV → SigV → Bool) {n : Nat} (v : Nat → Option SigV)
    (h : (argmaxO lt n v).2 = none) : ∀ k < n, v k = none := by
  suffices h2 : ∀ (l : List Nat) (best : Nat × Option SigV),
      (l.foldl (amStep lt v) best).2 = none →
      best.2 = none ∧ ∀ k ∈ l, v k = none by
    intro k hk
    exact (h2 (List.range n) (0, none) h).2 k (List.mem_range.mpr hk)
  intro l
  induction l with
  | nil =>
    intro best h
    exact ⟨h, by simp⟩
  | cons a l ih =>
    intro best h
    obtain ⟨h1, h2⟩ := ih (amStep lt v best a) h
    have hva : v a = none := by
      rcases hva : v a with _ | x
      · rfl
      · exfalso
        unfold amStep at h1
        rcases hb2 : best.2 with _ | b
        · simp [hva, hb2] at h1
        · by_cases hlt : lt b x = true
          · simp [hva, hb2, hlt] at h1
          · simp [hva, hb2, hlt] at h1
    refine ⟨?_, ?_⟩
    · unfold amStep at h1
      simpa [hva] using h1
    · intro k hk
      rcases List.mem_cons.mp hk with h | h
      · subst h; exact hva
      · exact h2 k h

theorem argmaxO_max (lt : SigV → SigV → Bool) (g : SigV → ℚ)
    (hlt : ∀ b a, lt b a = true ↔ g b < g a) (n : Nat) (v : Nat → Option SigV)
    (bv : SigV) (h : (argmaxO lt n v).2 = some bv) :
    ∀ k < n, ∀ a, v k = some a → g a ≤ g bv := by
  suffices h2 : ∀ (l : List Nat) (best : Nat × Option SigV),
      (l.foldl (amStep lt v) best).2 = some bv →
      (∀ b0, best.2 = some b0 → g b0 ≤ g bv) ∧
        (∀ k ∈ l, ∀ a, v k = some a → g a ≤ g bv) by
    intro k hk a ha
    exact (h2 (List.range n) (0, none) h).2 k (List.mem_range.mpr hk) a ha
  intro l
  induction l with
  | nil =>
    intro best h
    refine ⟨?_, by simp⟩
    intro b0 hb0
    rw [List.foldl_nil] at h
    rw [hb0] at h
    cases h
    exact le_refl _
  | cons e l ih =>
    intro best h
    obtain ⟨ih1, ih2⟩ := ih (amStep lt v best e) h
    have hstep : ∀ b0, best.2 = some b0 → g b0 ≤ g bv := by
      intro b0 hb0
      rcases hve : v e with _ | x
      · exact ih1 b0 (by unfold amStep; simp [hve, hb0])
      · by_cases hltx : lt b0 x = true
        · have hx : g x ≤ g bv := ih1 x (by unfold amStep; simp [hve, hb0, hltx])
          exact le_of_lt (lt_of_lt_of_le ((hlt b0 x).mp hltx) hx)
        · exact ih1 b0 (by unfold amStep; simp [hve, hb0, hltx])
    refine ⟨hstep, ?_⟩
    intro k hk a ha
    rcases List.mem_cons.mp hk with hke | hke
    · subst hke
      rcases hb2 : best.2 with _ | b0
      · exact ih1 a (by unfold amStep; simp [ha, hb2])
      · by_cases hltx : lt b0 a = true
        · exact ih1 a (by unfold amStep; simp [ha, hb2, hltx])
        · have hle : g a ≤ g b0 := le_of_not_lt (fun hc => hltx ((hlt b0 a).mpr hc))
          exact le_trans hle (hstep b0 hb2)
    · exact ih2 k hke a ha

theorem keyLt_iff : ∀ b a : SigV, keyLt b a = true ↔ b.key < a.key := by
  intro b a
  simp [keyLt]

theorem ratioLt_iff_of_pos {thr : ℚ} (h : 0 < thr) :
    ∀ b a : SigV, ratioLt thr b a = true ↔ b.key < a.key := by
  intro b a
  simp [ratioLt, h]

end SSINS

namespace SSINS

theorem aminStep_snd_ne (v : Nat → ℚ) (best : Nat × Option ℚ) (k : Nat) :
    (aminStep v best k).2 ≠ none := by
  unfold aminStep
  rcases hb : best.2 with _ | b0
  · simp
  · by_cases hv : v k < b0
    · simp [hv]
    · simp [hv, hb]

theorem aminFold_fst (v : Nat → ℚ) (n : Nat) :
    ∀ (l : List Nat) (best : Nat × Option ℚ), (∀ k ∈ l, k < n) → best.1 < n →
      (l.foldl (aminStep v) best).1 < n := by
  intro l
  induction l with
  | nil => intro best _ hb; exact hb
  | cons e l ih =>
    intro best hmem hb
    refine ih _ (fun k hk => hmem k (List.mem_cons_of_mem _ hk)) ?_
    unfold aminStep
    rcases hb2 : best.2 with _ | b0
    · simpa using hmem e (List.mem_cons_self _ _)
    · by_cases hv : v e < b0
      · simp only [hv, if_true]
        exact hmem e (List.mem_cons_self _ _)
      · simp only [hv, if_false]
        exact hb

theorem aminFold_none (v : Nat → ℚ) :
    ∀ (l : List Nat) (best : Nat × Option ℚ),
      (l.foldl (aminStep v) best).2 = none → best.2 = none ∧ l = [] := by
  intro l
  induction l with
  | nil => intro best h; exact ⟨h, rfl⟩
  | cons e l ih =>
    intro best h
    exact absurd (ih (aminStep v best e) h).1 (aminStep_snd_ne v best e)

theorem aminFold_val (v : Nat → ℚ) :
    ∀ (l : List Nat) (best : Nat × Option ℚ),
      (best.2 = some (v best.1) ∨ best.2 = none) →
      ((l.foldl (aminStep v) best).2 = some (v (l.foldl (aminStep v) best).1) ∨
        (l.foldl (aminStep v) best).2 = none) := by
  intro l
  induction l with
  | nil => intro best hb; exact hb
  | cons e l ih =>
    intro best hb
    refine ih _ ?_
    unfold aminStep
    rcases hb2 : best.2 with _ | b0
    · simp
    · by_cases hv : v e < b0
      · simp [hv]
      · simp only [hv, if_false]
        rcases hb with hb | hb
        · exact Or.inl (hb2 ▸ hb)
        · exact absurd (hb2 ▸ hb) (by simp)

theorem aminFold_min (v : Nat → ℚ) :
    ∀ (l : List Nat) (best : Nat × Option ℚ) (rv : ℚ),
      (l.foldl (aminStep v) best).2 = some rv →
      (∀ b0, best.2 = some b0 → rv ≤ b0) ∧ (∀ k ∈ l, rv ≤ v k) := by
  intro l
  induction l with
  | nil =>
    intro best rv h
    refine ⟨?_, by simp⟩
    intro b0 hb0
    rw [List.foldl_nil] at h
    rw [hb0] at h
    cases h
    exact le_refl _
  | cons e l ih =>
    intro best rv h
    obtain ⟨ih1, ih2⟩ := ih (aminStep v best e) rv h
    have hstep : ∀ b0, best.2 = some b0 → rv ≤ b0 := by
      intro b0 hb0
      by_cases hv : v e < b0
      · have h1 : rv ≤ v e := ih1 (v e) (by unfold aminStep; simp [hb0, hv])
        exact le_trans h1 (le_of_lt hv)
      · exact ih1 b0 (by unfold aminStep; simp [hb0, hv])
    refine ⟨hstep, ?_⟩
    intro k hk
    rcases List.mem_cons.mp hk with hke | hke
    · subst hke
      rcases hb2 : best.2 with _ | b0
      · exact ih1 (v k) (by unfold aminStep; simp [hb2])
      · by_cases hv : v k < b0
        · exact ih1 (v k) (by unfold aminStep; simp [hb2, hv])
        · exact le_trans (hstep b0 hb2) (le_of_not_lt hv)
    · exact ih2 k hke

theorem argminQ_spec (n : Nat) (v : Nat → ℚ) (hn : 0 < n) :
    argminQ n v < n ∧ ∀ j < n, v (argminQ n v) ≤ v j := by
  rcases hval : ((List.range n).foldl (aminStep v) (0, none)).2 with _ | rv
  · exfalso
    have := (aminFold_none v (List.range n) (0, none) hval).2
    have hmem : (0 : Nat) ∈ List.range n := List.mem_range.mpr hn
    rw [this] at hmem
    simp at hmem
  · have hv2 := aminFold_val v (List.range n) (0, none) (Or.inr rfl)
    rw [hval] at hv2
    rcases hv2 with hv2 | hv2
    · constructor
      · exact aminFold_fst v n (List.range n) (0, none)
          (fun k hk => List.mem_range.mp hk) hn
      · intro j hj
        have hmin := (aminFold_min v (List.range n) (0, none) rv hval).2 j
          (List.mem_range.mpr hj)
        unfold argminQ
        cases hv2
        exact hmin
    · exact absurd hv2 (by simp)

theorem foldl_min_le (l : List ℚ) (a : ℚ) :
    l.foldl min a ≤ a ∧ ∀ x ∈ l, l.foldl min a ≤ x := by
  induction l generalizing a with
  | nil => exact ⟨le_refl a, by simp⟩
  | cons b l ih =>
    obtain ⟨h1, h2⟩ := ih (min a b)
    refine ⟨h1.trans (min_le_left a b), ?_⟩
    intro x hx
    rcases List.mem_cons.mp hx with h | h
    · subst h; exact h1.trans (min_le_right a _)
    · exact h2 x h

theorem foldl_min_mem (l : List ℚ) (a : ℚ) :
    l.foldl min a = a ∨ l.foldl min a ∈ l := by
  induction l generalizing a with
  | nil => exact Or.inl rfl
  | cons b l ih =>
    rcases ih (min a b) with h | h
    · rcases min_choice a b with hc | hc
      · exact Or.inl (by rw [List.foldl_cons, h, hc])
      · refine Or.inr (List.mem_cons.mpr (Or.inl ?_))
        rw [List.foldl_cons, h, hc]
    · exact Or.inr (List.mem_cons_of_mem _ h)

theorem foldl_max_ge (l : List ℚ) (a : ℚ) :
    a ≤ l.foldl max a ∧ ∀ x ∈ l, x ≤ l.foldl max a := by
  induction l generalizing a with
  | nil => exact ⟨le_refl a, by simp⟩
  | cons b l ih =>
    obtain ⟨h1, h2⟩ := ih (max a b)
    refine ⟨(le_max_left a b).trans h1, ?_⟩
    intro x hx
    rcases List.mem_cons.mp hx with h | h
    · subst h; exact (le_max_right a _).trans h1
    · exact h2 x h

theorem foldl_max_mem (l : List ℚ) (a : ℚ) :
    l.foldl max a = a ∨ l.foldl max a ∈ l := by
  induction l generalizing a with
  | nil => exact Or.inl rfl
  | cons b l ih =>
    rcases ih (max a b) with h | h
    · rcases max_choice a b with hc | hc
      · exact Or.inl (by rw [List.foldl_cons, h, hc])
      · refine Or.inr (List.mem_cons.mpr (Or.inl ?_))
        rw [List.foldl_cons, h, hc]
    · exact Or.inr (List.mem_cons_of_mem _ h)

theorem freqMin_le (l : List ℚ) (x : ℚ) (hx : x ∈ l) : freqMin l ≤ x :=
  (foldl_min_le l (l.headD 0)).2 x hx

theorem freqMin_mem (l : List ℚ) (h : l ≠ []) : freqMin l ∈ l := by
  rcases foldl_min_mem l (l.headD 0) with hm | hm
  · rw [freqMin, hm]
    cases l with
    | nil => exact absurd rfl h
    | cons a l => exact List.mem_cons_self _ _
  · exact hm

theorem freqMax_ge (l : List ℚ) (x : ℚ) (hx : x ∈ l) : x ≤ freqMax l :=
  (foldl_max_ge l (l.headD 0)).2 x hx

theorem freqMax_mem (l : List ℚ) (h : l ≠ []) : freqMax l ∈ l := by
  rcases foldl_max_mem l (l.headD 0) with hm | hm
  · rw [freqMax, hm]
    cases l with
    | nil => exact absurd rfl h
    | cons a l => exact List.mem_cons_self _ _
  · exact hm

end SSINS

namespace SSINS

theorem chooseChamp_cases (mf : MFState) (ins : INS) (acc : Option Champ)
    (e : String × Option Slice) :
    chooseChamp mf ins acc e = acc ∨
      ∃ sv, (shapeCandidate mf ins e.1 e.2).2.2 = some sv ∧
        sigGtThresh sv (mf.sig_thresh e.1) = true ∧
        chooseChamp mf ins acc e =
          some ⟨(shapeCandidate mf ins e.1 e.2).1,
                (shapeCandidate mf ins e.1 e.2).2.1, sv, e.1⟩ ∧
        (acc = none ∨ ∃ b, acc = some b ∧ keyLt b.sig sv = true) := by
  rcases hc : (shapeCandidate mf ins e.1 e.2).2.2 with _ | sv
  · refine Or.inl ?_
    unfold chooseChamp
    rw [hc]
  · by_cases ht : sigGtThresh sv (mf.sig_thresh e.1) = true
    · rcases hacc : acc with _ | b
      · refine Or.inr ⟨sv, rfl, ht, ?_, Or.inl rfl⟩
        unfold chooseChamp
        rw [hc]
        simp [ht]
      · by_cases hk : keyLt b.sig sv = true
        · refine Or.inr ⟨sv, rfl, ht, ?_, Or.inr ⟨b, rfl, hk⟩⟩
          unfold chooseChamp
          rw [hc]
          simp [ht, hk]
        · refine Or.inl ?_
          unfold chooseChamp
          rw [hc]
          simp [ht, hk]
    · refine Or.inl ?_
      unfold chooseChamp
      rw [hc]
      simp [ht]

theorem chooseChamp_none_iff (mf : MFState) (ins : INS) (acc : Option Champ)
    (e : String × Option Slice) :
    chooseChamp mf ins acc e = none ↔
      acc = none ∧ ∀ sv, ¬ elig mf ins e sv := by
  constructor
  · intro h
    have hacc : acc = none := by
      rcases chooseChamp_cases mf ins acc e with hc | ⟨sv, h1, h2, h3, h4⟩
      · exact hc.symm.trans h
      · rw [h] at h3
        exact absurd h3.symm (by simp)
    refine ⟨hacc, ?_⟩
    rintro sv ⟨he1, he2⟩
    rw [hacc] at h
    unfold chooseChamp at h
    rw [he1] at h
    simp [he2] at h
  · rintro ⟨hacc, hne⟩
    unfold chooseChamp
    rcases hc : (shapeCandidate mf ins e.1 e.2).2.2 with _ | sv
    · exact hacc
    · by_cases ht : sigGtThresh sv (mf.sig_thresh e.1) = true
      · exact absurd ⟨hc, ht⟩ (hne sv)
      · simp only [ht, if_false]
        rcases acc with _ | b
        · rfl
        · exact hacc

theorem matchFold_none (mf : MFState) (ins : INS) :
    ∀ (l : List (String × Option Slice)) (acc : Option Champ),
      l.foldl (chooseChamp mf ins) acc = none ↔
        (acc = none ∧ ∀ e ∈ l, ∀ sv, ¬ elig mf ins e sv) := by
  intro l
  induction l with
  | nil =>
    intro acc
    simp only [List.foldl_nil]
    constructor
    · intro h
      exact ⟨h, by simp⟩
    · intro h
      exact h.1
  | cons e l ih =>
    intro acc
    rw [List.foldl_cons, ih (chooseChamp mf ins acc e)]
    rw [chooseChamp_none_iff]
    constructor
    · rintro ⟨⟨h1, h2⟩, h3⟩
      refine ⟨h1, ?_⟩
      intro x hx sv
      rcases List.mem_cons.mp hx with hxe | hxe
      · subst hxe
        exact h2 sv
      · exact h3 x hxe sv
    · rintro ⟨h1, h2⟩
      exact ⟨⟨h1, fun sv => h2 e (List.mem_cons_self _ _) sv⟩,
        fun x hx sv => h2 x (List.mem_cons_of_mem _ hx) sv⟩

theorem matchFold_max (mf : MFState) (ins : INS) :
    ∀ (l : List (String × Option Slice)) (acc : Option Champ) (c : Champ),
      l.foldl (chooseChamp mf ins) acc = some c →
      (∀ b, acc = some b → b.sig.key ≤ c.sig.key) ∧
        (∀ e ∈ l, ∀ sv, elig mf ins e sv → sv.key ≤ c.sig.key) := by
  intro l
  induction l with
  | nil =>
    intro acc c h
    refine ⟨?_, by simp⟩
    intro b hb
    rw [List.foldl_nil] at h
    rw [hb] at h
    cases h
    exact le_refl _
  | cons e l ih =>
    intro acc c h
    rw [List.foldl_cons] at h
    obtain ⟨ih1, ih2⟩ := ih (chooseChamp mf ins acc e) c h
    have hstep : ∀ b, acc = some b → b.sig.key ≤ c.sig.key := by
      intro b hb
      rcases chooseChamp_cases mf ins acc e with hc | ⟨sv, h1, h2, h3, h4⟩
      · exact ih1 b (hc.trans hb)
      · rcases h4 with h4 | ⟨b2, hb2, hk⟩
        · rw [h4] at hb
          cases hb
        · rw [hb2] at hb
          cases hb
          have hsv : sv.key ≤ c.sig.key := by
            have := ih1 _ h3
            simpa using this
          exact le_trans (le_of_lt ((keyLt_iff _ _).mp hk)) hsv
    refine ⟨hstep, ?_⟩
    intro x hx sv hel
    rcases List.mem_cons.mp hx with hxe | hxe
    · subst hxe
      rcases hel with ⟨he1, he2⟩
      rcases hacc : acc with _ | b
      · have hcc : chooseChamp mf ins acc x =
            some ⟨(shapeCandidate mf ins x.1 x.2).1,
                  (shapeCandidate mf ins x.1 x.2).2.1, sv, x.1⟩ := by
          rw [hacc]
          unfold chooseChamp
          rw [he1]
          simp [he2]
        have := ih1 _ hcc
        simpa using this
      · by_cases hk : keyLt b.sig sv = true
        · have hcc : chooseChamp mf ins acc x =
              some ⟨(shapeCandidate mf ins x.1 x.2).1,
                    (shapeCandidate mf ins x.1 x.2).2.1, sv, x.1⟩ := by
            rw [hacc]
            unfold chooseChamp
            rw [he1]
            simp [he2, hk]
          have := ih1 _ hcc
          simpa using this
        · have hk2 : sv.key ≤ b.sig.key :=
            le_of_not_lt (fun hcon => hk ((keyLt_iff _ _).mpr hcon))
          exact le_trans hk2 (hstep b hacc)
    · exact ih2 x hxe sv hel

theorem matchFold_split (mf : MFState) (ins : INS) :
    ∀ (l : List (String × Option Slice)) (acc : Option Champ) (c : Champ),
      l.foldl (chooseChamp mf ins) acc = some c →
      acc = some c ∨
        ∃ l1 e l2, l = l1 ++ e :: l2 ∧ c.shape = e.1 ∧
          shapeCandidate mf ins e.1 e.2 = (c.t, c.f, some c.sig) ∧
          sigGtThresh c.sig (mf.sig_thresh e.1) = true ∧
          (l1.foldl (chooseChamp mf ins) acc = none ∨
            ∃ pb, l1.foldl (chooseChamp mf ins) acc = some pb ∧
              pb.sig.key < c.sig.key) := by
  intro l
  induction l with
  | nil =>
    intro acc c h
    exact Or.inl h
  | cons e l ih =>
    intro acc c h
    rw [List.foldl_cons] at h
    rcases ih (chooseChamp mf ins acc e) c h with ha | ⟨l1, e2, l2, hl, h1, h2, h3, h4⟩
    · rcases chooseChamp_cases mf ins acc e with hc | ⟨sv, hc1, hc2, hc3, hc4⟩
      · exact Or.inl (hc.symm.trans ha)
      · have hceq : some c =
            some (⟨(shapeCandidate mf ins e.1 e.2).1,
                   (shapeCandidate mf ins e.1 e.2).2.1, sv, e.1⟩ : Champ) :=
          ha.symm.trans hc3
        have hcv : c = ⟨(shapeCandidate mf ins e.1 e.2).1,
            (shapeCandidate mf ins e.1 e.2).2.1, sv, e.1⟩ := by
          cases hceq
          rfl
        refine Or.inr ⟨[], e, l, by simp, by rw [hcv], ?_, by rw [hcv]; exact hc2, ?_⟩
        · rw [hcv]
          show shapeCandidate mf ins e.1 e.2 =
            ((shapeCandidate mf ins e.1 e.2).1,
              (shapeCandidate mf ins e.1 e.2).2.1, some sv)
          rw [← hc1]
        · simp only [List.foldl_nil]
          rcases hc4 with hc4 | ⟨b, hb, hk⟩
          · exact Or.inl hc4
          · refine Or.inr ⟨b, hb, ?_⟩
            rw [hcv]
            exact (keyLt_iff _ _).mp hk
    · refine Or.inr ⟨e :: l1, e2, l2, by rw [hl, List.cons_append], h1, h2, h3, ?_⟩
      rw [List.foldl_cons]
      exact h4

end SSINS

namespace SSINS

theorem inSlc_self (t : Nat) : inSlc ⟨t, t + 1⟩ t = true := by
  simp [inSlc]

theorem mem_chanIdx (ins : INS) (s : Slice) (f : Nat) :
    f ∈ chanIdx ins s ↔ f < ins.Nfreqs ∧ inSlc s f = true := by
  simp [chanIdx, List.mem_filter, List.mem_range]

theorem slicedSig_some (ins : INS) (s : Slice) (t p : Nat) (sv : SigV)
    (h : slicedSig ins s t p = some sv) :
    ∃ f, f < ins.Nfreqs ∧ inSlc s f = true ∧ ins.msMask t f p = false := by
  unfold slicedSig at h
  by_cases hl : ((chanIdx ins s).filter (fun f => !ins.msMask t f p)).length = 0
  · simp only [hl, if_true] at h
    exact absurd h (by simp)
  · have hne : (chanIdx ins s).filter (fun f => !ins.msMask t f p) ≠ [] := by
      intro hc
      rw [hc] at hl
      simp at hl
    obtain ⟨f, hf⟩ := List.exists_mem_of_ne_nil _ hne
    obtain ⟨hf1, hf2⟩ := List.mem_filter.mp hf
    obtain ⟨hf3, hf4⟩ := (mem_chanIdx ins s f).mp hf1
    refine ⟨f, hf3, hf4, ?_⟩
    simpa using hf2

theorem unravel2 (P t p : Nat) (hp : p < P) :
    (t * P + p) / P = t ∧ (t * P + p) % P = p := by
  have hP : 0 < P := Nat.pos_of_ne_zero (fun h => by omega)
  constructor
  · rw [Nat.add_comm, Nat.add_mul_div_right _ _ hP, Nat.div_eq_of_lt hp, Nat.zero_add]
  · rw [Nat.add_comm, Nat.add_mul_mod_self_right, Nat.mod_eq_of_lt hp]

theorem unravel3 (F P t f p : Nat) (hf : f < F) (hp : p < P) :
    (t * (F * P) + f * P + p) / (F * P) = t ∧
      ((t * (F * P) + f * P + p) / P) % F = f ∧
      (t * (F * P) + f * P + p) % P = p := by
  have hP : 0 < P := Nat.pos_of_ne_zero (fun h => by omega)
  have hF : 0 < F := Nat.pos_of_ne_zero (fun h => by omega)
  have hFP : 0 < F * P := Nat.mul_pos hF hP
  have hlt : f * P + p < F * P := by
    calc f * P + p < f * P + P := by omega
    _ = (f + 1) * P := by ring
    _ ≤ F * P := Nat.mul_le_mul_right P hf
  refine ⟨?_, ?_, ?_⟩
  · have : t * (F * P) + f * P + p = (f * P + p) + (F * P) * t := by ring
    rw [this, Nat.add_mul_div_left _ _ hFP, Nat.div_eq_of_lt hlt, Nat.zero_add]
  · have : t * (F * P) + f * P + p = p + P * (f + F * t) := by ring
    rw [this, Nat.add_mul_div_left _ _ hP, Nat.div_eq_of_lt hp]
    simp only [Nat.zero_add]
    rw [Nat.add_mul_mod_self_left, Nat.mod_eq_of_lt hf]
  · have : t * (F * P) + f * P + p = p + P * (f + F * t) := by ring
    rw [this, Nat.add_mul_mod_self_left, Nat.mod_eq_of_lt hp]

theorem narrowVal_cell (ins : INS) (t2 f2 p2 : Nat) (ht2 : t2 < ins.Ntimes)
    (hf2 : f2 < ins.Nfreqs) (hp2 : p2 < ins.Npols) :
    ∃ k2, k2 < ins.Ntimes * ins.Nfreqs * ins.Npols ∧
      (ins.msMask t2 f2 p2 = false →
        narrowVal ins k2 = some ⟨|ins.msVal t2 f2 p2|, 1⟩) := by
  set k2 := t2 * (ins.Nfreqs * ins.Npols) + f2 * ins.Npols + p2 with hk2
  obtain ⟨hu1, hu2, hu3⟩ := unravel3 ins.Nfreqs ins.Npols t2 f2 p2 hf2 hp2
  refine ⟨k2, ?_, ?_⟩
  · have h1 : f2 * ins.Npols + p2 < ins.Nfreqs * ins.Npols := by
      calc f2 * ins.Npols + p2 < f2 * ins.Npols + ins.Npols := by omega
      _ = (f2 + 1) * ins.Npols := by ring
      _ ≤ ins.Nfreqs * ins.Npols := Nat.mul_le_mul_right _ hf2
    calc k2 < t2 * (ins.Nfreqs * ins.Npols) + ins.Nfreqs * ins.Npols := by omega
    _ = (t2 + 1) * (ins.Nfreqs * ins.Npols) := by ring
    _ ≤ ins.Ntimes * (ins.Nfreqs * ins.Npols) := Nat.mul_le_mul_right _ ht2
    _ = ins.Ntimes * ins.Nfreqs * ins.Npols := by rw [Nat.mul_assoc]
  · intro hunm2
    have hu1' : k2 / (ins.Nfreqs * ins.Npols) = t2 := hu1
    have hu2' : (k2 / ins.Npols) % ins.Nfreqs = f2 := hu2
    have hu3' : k2 % ins.Npols = p2 := hu3
    unfold narrowVal
    simp only [hu1', hu2', hu3', hunm2]
    simp

theorem narrow_sh_candidate (mf : MFState) (ins : INS) (oslc : Option Slice)
    (hT : 0 < ins.Ntimes) (hF : 0 < ins.Nfreqs) (hP : 0 < ins.Npols) :
    ∃ t f p, t < ins.Ntimes ∧ f < ins.Nfreqs ∧ p < ins.Npols ∧
      shapeCandidate mf ins "narrow" oslc =
        (⟨t, t + 1⟩, ⟨f, f + 1⟩,
          if ins.msMask t f p then none else some ⟨|ins.msVal t f p|, 1⟩) ∧
      (ins.msMask t f p = false →
        ∀ t2 < ins.Ntimes, ∀ f2 < ins.Nfreqs, ∀ p2 < ins.Npols,
          ins.msMask t2 f2 p2 = false →
            (⟨|ins.msVal t2 f2 p2|, 1⟩ : SigV).key ≤
              (⟨|ins.msVal t f p|, 1⟩ : SigV).key) ∧
      ((∃ t2, t2 < ins.Ntimes ∧ ∃ f2, f2 < ins.Nfreqs ∧ ∃ p2, p2 < ins.Npols ∧
          ins.msMask t2 f2 p2 = false) → ins.msMask t f p = false) := by
  have hTot : 0 < ins.Ntimes * ins.Nfreqs * ins.Npols :=
    Nat.mul_pos (Nat.mul_pos hT hF) hP
  set n := ins.Ntimes * ins.Nfreqs * ins.Npols with hn
  set k := (argmaxO keyLt n (narrowVal ins)).1 with hk
  have hkn : k < n := argmaxO_fst keyLt (narrowVal ins) hTot
  have hFP : 0 < ins.Nfreqs * ins.Npols := Nat.mul_pos hF hP
  have hvk : narrowVal ins k =
      if ins.msMask (k / (ins.Nfreqs * ins.Npols))
          ((k / ins.Npols) % ins.Nfreqs) (k % ins.Npols) then none
      else some ⟨|ins.msVal (k / (ins.Nfreqs * ins.Npols))
          ((k / ins.Npols) % ins.Nfreqs) (k % ins.Npols)|, 1⟩ := rfl
  refine ⟨k / (ins.Nfreqs * ins.Npols), (k / ins.Npols) % ins.Nfreqs,
    k % ins.Npols, ?_, ?_, ?_, ?_, ?_, ?_⟩
  · rw [Nat.div_lt_iff_lt_mul hFP]
    rw [hn, Nat.mul_assoc] at hkn
    exact hkn
  · exact Nat.mod_lt _ hF
  · exact Nat.mod_lt _ hP
  · unfold shapeCandidate
    rw [if_pos rfl]
  · intro hunm t2 ht2 f2 hf2 p2 hp2 hunm2
    obtain ⟨k2, hk2n, hv2f⟩ := narrowVal_cell ins t2 f2 p2 ht2 hf2 hp2
    have hv2 := hv2f hunm2
    rcases argmaxO_val keyLt n (narrowVal ins) with hav | ⟨hav, hav0⟩
    · rw [← hk] at hav
      have hsome : (argmaxO keyLt n (narrowVal ins)).2 =
          some ⟨|ins.msVal (k / (ins.Nfreqs * ins.Npols))
            ((k / ins.Npols) % ins.Nfreqs) (k % ins.Npols)|, 1⟩ := by
        rw [hav, hvk, hunm]
        simp
      exact argmaxO_max keyLt SigV.key keyLt_iff n (narrowVal ins) _ hsome
        k2 hk2n _ hv2
    · exfalso
      have := argmaxO_none keyLt (narrowVal ins) hav k2 hk2n
      rw [hv2] at this
      exact absurd this (by simp)
  · rintro ⟨t2, ht2, f2, hf2, p2, hp2, hunm2⟩
    obtain ⟨k2, hk2n, hv2f⟩ := narrowVal_cell ins t2 f2 p2 ht2 hf2 hp2
    have hv2 := hv2f hunm2
    by_cases hm : ins.msMask (k / (ins.Nfreqs * ins.Npols))
        ((k / ins.Npols) % ins.Nfreqs) (k % ins.Npols) = true
    · exfalso
      have hvnone : narrowVal ins k = none := by
        rw [hvk, hm]
        simp
      have h2none : (argmaxO keyLt n (narrowVal ins)).2 = none := by
        rcases argmaxO_val keyLt n (narrowVal ins) with hav | ⟨hav, hav0⟩
        · rw [← hk] at hav
          rw [hav, hvnone]
        · exact hav
      have := argmaxO_none keyLt (narrowVal ins) h2none k2 hk2n
      rw [hv2] at this
      exact absurd this (by simp)
    · simpa using hm

theorem generic_candidate (mf : MFState) (ins : INS) (sh : String) (slc : Slice)
    (hsh : ¬(sh = "narrow")) (hthr : 0 < mf.sig_thresh sh)
    (hT : 0 < ins.Ntimes) (hP : 0 < ins.Npols) :
    ∃ t0 p0, t0 < ins.Ntimes ∧ p0 < ins.Npols ∧
      shapeCandidate mf ins sh (some slc) =
        (⟨t0, t0 + 1⟩, slc, slicedSig ins slc t0 p0) ∧
      ∀ t2 < ins.Ntimes, ∀ p2 < ins.Npols, ∀ sv2,
        slicedSig ins slc t2 p2 = some sv2 →
          ∃ sv0, slicedSig ins slc t0 p0 = some sv0 ∧ sv2.key ≤ sv0.key := by
  have hTot : 0 < ins.Ntimes * ins.Npols := Nat.mul_pos hT hP
  set n := ins.Ntimes * ins.Npols with hn
  set k := (argmaxO (ratioLt (mf.sig_thresh sh)) n (genVal ins slc)).1 with hk
  have hkn : k < n := argmaxO_fst _ (genVal ins slc) hTot
  refine ⟨k / ins.Npols, k % ins.Npols, ?_, Nat.mod_lt _ hP, ?_, ?_⟩
  · rw [Nat.div_lt_iff_lt_mul hP]
    exact hkn
  · unfold shapeCandidate
    rw [if_neg hsh]
  · intro t2 ht2 p2 hp2 sv2 hsv2
    set k2 := t2 * ins.Npols + p2 with hk2
    have hk2n : k2 < n := by
      calc k2 < t2 * ins.Npols + ins.Npols := by omega
      _ = (t2 + 1) * ins.Npols := by ring
      _ ≤ ins.Ntimes * ins.Npols := Nat.mul_le_mul_right _ ht2
    obtain ⟨hu1, hu2⟩ := unravel2 ins.Npols t2 p2 hp2
    have hv2 : genVal ins slc k2 = some sv2 := by
      have hu1' : k2 / ins.Npols = t2 := hu1
      have hu2' : k2 % ins.Npols = p2 := hu2
      unfold genVal
      simp only [hu1', hu2']
      exact hsv2
    rcases argmaxO_val (ratioLt (mf.sig_thresh sh)) n (genVal ins slc) with
      hav | ⟨hav, hav0⟩
    · rw [← hk] at hav
      rcases hvv : genVal ins slc k with _ | sv0
      · rw [hvv] at hav
        have := argmaxO_none _ (genVal ins slc) hav k2 hk2n
        rw [hv2] at this
        exact absurd this (by simp)
      · rw [hvv] at hav
        refine ⟨sv0, hvv, ?_⟩
        exact argmaxO_max _ SigV.key (ratioLt_iff_of_pos hthr) n (genVal ins slc)
          sv0 hav k2 hk2n sv2 hv2
    · exfalso
      have := argmaxO_none _ (genVal ins slc) hav k2 hk2n
      rw [hv2] at this
      exact absurd this (by simp)

end SSINS

namespace SSINS

theorem generic_candidate_loc (mf : MFState) (ins : INS) (sh : String)
    (slc : Slice) (hsh : ¬(sh = "narrow")) (hT : 0 < ins.Ntimes)
    (hP : 0 < ins.Npols) :
    ∃ t0 p0, t0 < ins.Ntimes ∧ p0 < ins.Npols ∧
      shapeCandidate mf ins sh (some slc) =
        (⟨t0, t0 + 1⟩, slc, slicedSig ins slc t0 p0) := by
  have hTot : 0 < ins.Ntimes * ins.Npols := Nat.mul_pos hT hP
  set k := (argmaxO (ratioLt (mf.sig_thresh sh)) (ins.Ntimes * ins.Npols)
    (genVal ins slc)).1 with hk
  have hkn : k < ins.Ntimes * ins.Npols := argmaxO_fst _ (genVal ins slc) hTot
  refine ⟨k / ins.Npols, k % ins.Npols, ?_, Nat.mod_lt _ hP, ?_⟩
  · rw [Nat.div_lt_iff_lt_mul hP]
    exact hkn
  · unfold shapeCandidate
    rw [if_neg hsh]

theorem champ_cell (mf : MFState) (ins : INS) (c : Champ)
    (hT : 0 < ins.Ntimes) (hF : 0 < ins.Nfreqs) (hP : 0 < ins.Npols)
    (h : matchTest mf ins = some c) :
    ∃ t f p, t < ins.Ntimes ∧ f < ins.Nfreqs ∧ p < ins.Npols ∧
      inSlc c.t t = true ∧ inSlc c.f f = true ∧ ins.msMask t f p = false := by
  rcases matchFold_split mf ins mf.slice_dict none c h with
    hc | ⟨l1, e, l2, hl, h1, h2, h3, h4⟩
  · exact absurd hc (by simp)
  · by_cases hnar : e.1 = "narrow"
    · rw [hnar] at h2
      obtain ⟨t, f, p, ht, hf, hp, hcand, hmax, hunmif⟩ :=
        narrow_sh_candidate mf ins e.2 hT hF hP
      rw [hcand] at h2
      simp only [Prod.mk.injEq] at h2
      obtain ⟨h2a, h2b, h2c⟩ := h2
      have hunm : ins.msMask t f p = false := by
        by_cases hm : ins.msMask t f p = true
        · rw [hm] at h2c
          simp at h2c
        · simpa using hm
      refine ⟨t, f, p, ht, hf, hp, ?_, ?_, hunm⟩
      · rw [← h2a]
        exact inSlc_self t
      · rw [← h2b]
        exact inSlc_self f
    · rcases he2 : e.2 with _ | slc
      · rw [he2] at h2
        have hval : shapeCandidate mf ins e.1 none =
            (⟨0, 0⟩, ⟨0, 0⟩, (none : Option SigV)) := by
          unfold shapeCandidate
          rw [if_neg hnar]
        rw [hval] at h2
        simp only [Prod.mk.injEq] at h2
        exact absurd h2.2.2 (by simp)
      · rw [he2] at h2
        obtain ⟨t0, p0, ht0, hp0, hcand⟩ :=
          generic_candidate_loc mf ins e.1 slc hnar hT hP
        rw [hcand] at h2
        simp only [Prod.mk.injEq] at h2
        obtain ⟨h2a, h2b, h2c⟩ := h2
        obtain ⟨f, hf1, hf2, hf3⟩ := slicedSig_some ins slc t0 p0 c.sig h2c
        refine ⟨t0, f, p0, ht0, hf1, hp0, ?_, ?_, hf3⟩
        · rw [← h2a]
          exact inSlc_self t0
        · rw [← h2b]
          exact hf2

theorem maskMA_mono (ins : INS) (ts fs : Slice) (t f p : Nat)
    (h : ins.maMask t f p = true) : (maskMA ins ts fs).maMask t f p = true := by
  unfold maskMA
  simp [h]

theorem maskMA_flips (ins : INS) (ts fs : Slice) (t f p : Nat)
    (h1 : inSlc ts t = true) (h2 : inSlc fs f = true) :
    (maskMA ins ts fs).maMask t f p = true := by
  unfold maskMA
  simp [h1, h2]

theorem maskMA_src (ins : INS) (ts fs : Slice) (t f p : Nat)
    (h : (maskMA ins ts fs).maMask t f p = true) :
    ins.maMask t f p = true ∨ (inSlc ts t = true ∧ inSlc fs f = true) := by
  unfold maskMA at h
  simp only [Bool.or_eq_true, Bool.and_eq_true] at h
  exact h

theorem recompute_maMask (ins : INS) (fs : Slice) :
    (recompute ins fs).maMask = ins.maMask := by
  unfold recompute
  split_ifs <;> rfl

theorem recompute_dims (ins : INS) (fs : Slice) :
    (recompute ins fs).Ntimes = ins.Ntimes ∧
      (recompute ins fs).Nfreqs = ins.Nfreqs ∧
      (recompute ins fs).Npols = ins.Npols := by
  unfold recompute
  split_ifs <;> exact ⟨rfl, rfl, rfl⟩

theorem samp_result (mf : MFState) (ins : INS) (ev : Event4) (r : Bool) :
    (applySampThreshTest mf ins ev r).1 = ins ∨
    (applySampThreshTest mf ins ev r).1 = maskMA ins ⟨0, ins.Ntimes⟩ ev.f ∨
    (applySampThreshTest mf ins ev r).1 =
      addEvent (maskMA ins ⟨0, ins.Ntimes⟩ ev.f)
        (.ev4 ⟨0, ins.Ntimes⟩ ev.f ("samp_thresh_" ++ ev.shape) none) := by
  unfold applySampThreshTest
  split_ifs <;> (try dsimp only) <;> (try split_ifs) <;> simp

theorem bcast_fold_mono (mf : MFState) (ev : Event4) (r : Bool)
    (l : List (String × Slice)) :
    ∀ (acc : INS) (t f p : Nat), acc.maMask t f p = true →
      (l.foldl (bcastStep mf ev r) acc).maMask t f p = true := by
  induction l with
  | nil => intro acc t f p h; exact h
  | cons sb l ih =>
    intro acc t f p h
    rw [List.foldl_cons]
    refine ih _ t f p ?_
    unfold bcastStep
    split_ifs
    · show (maskMA acc ev.t sb.2).maMask t f p = true
      exact maskMA_mono _ _ _ _ _ _ h
    · exact maskMA_mono _ _ _ _ _ _ h
    · exact h

theorem freqB_mono (mf : MFState) (ins : INS) (ev : Event4) (r : Bool)
    (t f p : Nat) (h : ins.maMask t f p = true) :
    (freqBroadcast mf ins ev r).1.maMask t f p = true := by
  unfold freqBroadcast
  split_ifs
  · exact h
  · exact bcast_fold_mono mf ev r mf.broadcast_slc_dict ins t f p h

theorem samp_mono (mf : MFState) (ins : INS) (ev : Event4) (r : Bool)
    (t f p : Nat) (h : ins.maMask t f p = true) :
    (applySampThreshTest mf ins ev r).1.maMask t f p = true := by
  rcases samp_result mf ins ev r with hs | hs | hs <;> rw [hs]
  · exact h
  · exact maskMA_mono _ _ _ _ _ _ h
  · exact maskMA_mono _ _ _ _ _ _ h

end SSINS

namespace SSINS

theorem finishIter_false (mf : MFState) (record : Bool) (ins : INS) (ev : Event4)
    (fmax : Slice) :
    finishIter mf record false ins ev fmax = (recompute ins fmax, .again) := rfl

theorem stepFlag_msMask (record : Bool) (ins : INS) (c : Champ) :
    (stepFlag record ins c).msMask = ins.msMask := by
  unfold stepFlag
  split_ifs <;> rfl

theorem stepFlag_maMask (record : Bool) (ins : INS) (c : Champ) :
    (stepFlag record ins c).maMask = (maskMA ins c.t c.f).maMask := by
  unfold stepFlag
  split_ifs <;> rfl

theorem stepFlag_dims (record : Bool) (ins : INS) (c : Champ) :
    (stepFlag record ins c).Ntimes = ins.Ntimes ∧
      (stepFlag record ins c).Nfreqs = ins.Nfreqs ∧
      (stepFlag record ins c).Npols = ins.Npols := by
  unfold stepFlag
  split_ifs <;> exact ⟨rfl, rfl, rfl⟩

theorem mem_allIdx (ins : INS) (t f p : Nat) :
    (t, f, p) ∈ allIdx ins ↔ t < ins.Ntimes ∧ f < ins.Nfreqs ∧ p < ins.Npols := by
  simp only [allIdx, List.mem_flatMap, List.mem_map, List.mem_range]
  constructor
  · rintro ⟨a, ha, b, hb, q, hq, he⟩
    injection he with h1 h23
    injection h23 with h2 h3
    subst h1
    subst h2
    subst h3
    exact ⟨ha, hb, hq⟩
  · rintro ⟨h1, h2, h3⟩
    exact ⟨t, h1, f, h2, p, h3, rfl⟩

theorem flagged_le (a b : INS) (hT : b.Ntimes = a.Ntimes)
    (hF : b.Nfreqs = a.Nfreqs) (hP : b.Npols = a.Npols)
    (hmono : ∀ t f p, a.maMask t f p = true → b.maMask t f p = true) :
    flaggedCount a ≤ flaggedCount b := by
  unfold flaggedCount
  have hidx : allIdx b = allIdx a := by
    unfold allIdx
    rw [hT, hF, hP]
  rw [hidx]
  exact List.countP_mono_left (fun x hx hpx => hmono _ _ _ hpx)

theorem flagged_lt (a b : INS) (hT : b.Ntimes = a.Ntimes)
    (hF : b.Nfreqs = a.Nfreqs) (hP : b.Npols = a.Npols)
    (hmono : ∀ t f p, a.maMask t f p = true → b.maMask t f p = true)
    (t0 f0 p0 : Nat) (ht0 : t0 < a.Ntimes) (hf0 : f0 < a.Nfreqs)
    (hp0 : p0 < a.Npols) (h1 : a.maMask t0 f0 p0 = false)
    (h2 : b.maMask t0 f0 p0 = true) :
    flaggedCount a < flaggedCount b := by
  unfold flaggedCount
  have hidx : allIdx b = allIdx a := by
    unfold allIdx
    rw [hT, hF, hP]
  rw [hidx]
  exact countP_mono_lt (allIdx a) _ _ (fun x hx hpx => hmono _ _ _ hpx)
    (t0, f0, p0) ((mem_allIdx a t0 f0 p0).mpr ⟨ht0, hf0, hp0⟩) h1 h2

theorem flagged_recompute (ins : INS) (fs : Slice) :
    flaggedCount (recompute ins fs) = flaggedCount ins := by
  unfold flaggedCount allIdx
  rw [recompute_maMask]
  obtain ⟨h1, h2, h3⟩ := recompute_dims ins fs
  rw [h1, h2, h3]

theorem step_again_noB (mf : MFState) (record sampF : Bool) (ins i : INS)
    (h : matchTestStep mf record sampF false ins = (i, .again)) :
    ∃ c i4, matchTest mf ins = some c ∧ i = recompute i4 c.f ∧
      i4.msMask = ins.msMask ∧
      (∀ t f p, ins.maMask t f p = true → i4.maMask t f p = true) ∧
      (∀ t f p, inSlc c.t t = true → inSlc c.f f = true →
        i4.maMask t f p = true) ∧
      (∀ t f p, i4.maMask t f p = true →
        ins.maMask t f p = true ∨ inSlc c.f f = true) ∧
      i4.Ntimes = ins.Ntimes ∧ i4.Nfreqs = ins.Nfreqs ∧ i4.Npols = ins.Npols := by
  unfold matchTestStep at h
  rcases hm : matchTest mf ins with _ | c
  · rw [hm] at h
    simp at h
  · rw [hm] at h
    dsimp only at h
    have hflag : ∀ i4 : INS,
        (i4 = stepFlag record ins c ∨
          i4 = maskMA (stepFlag record ins c) ⟨0, (stepFlag record ins c).Ntimes⟩
            (stepEvent c).f ∨
          i4 = addEvent (maskMA (stepFlag record ins c)
              ⟨0, (stepFlag record ins c).Ntimes⟩ (stepEvent c).f)
            (.ev4 ⟨0, (stepFlag record ins c).Ntimes⟩ (stepEvent c).f
              ("samp_thresh_" ++ (stepEvent c).shape) none)) →
        i4.msMask = ins.msMask ∧
        (∀ t f p, ins.maMask t f p = true → i4.maMask t f p = true) ∧
        (∀ t f p, inSlc c.t t = true → inSlc c.f f = true →
          i4.maMask t f p = true) ∧
        (∀ t f p, i4.maMask t f p = true →
          ins.maMask t f p = true ∨ inSlc c.f f = true) ∧
        i4.Ntimes = ins.Ntimes ∧ i4.Nfreqs = ins.Nfreqs ∧ i4.Npols = ins.Npols := by
      intro i4 hcase
      obtain ⟨hd1, hd2, hd3⟩ := stepFlag_dims record ins c
      have hbase_ms : (stepFlag record ins c).msMask = ins.msMask :=
        stepFlag_msMask record ins c
      have hbase_ma : (stepFlag record ins c).maMask =
          (maskMA ins c.t c.f).maMask := stepFlag_maMask record ins c
      have hstepev : (stepEvent c).f = c.f := rfl
      rcases hcase with hc | hc | hc <;> subst hc
      · refine ⟨hbase_ms, ?_, ?_, ?_, hd1, hd2, hd3⟩
        · intro t f p hma
          rw [hbase_ma]
          exact maskMA_mono _ _ _ _ _ _ hma
        · intro t f p h1 h2
          rw [hbase_ma]
          exact maskMA_flips _ _ _ _ _ _ h1 h2
        · intro t f p hma
          rw [hbase_ma] at hma
          rcases maskMA_src _ _ _ _ _ _ hma with hx | ⟨hx1, hx2⟩
          · exact Or.inl hx
          · exact Or.inr hx2
      · refine ⟨hbase_ms, ?_, ?_, ?_, hd1, hd2, hd3⟩
        · intro t f p hma
          apply maskMA_mono
          rw [hbase_ma]
          exact maskMA_mono _ _ _ _ _ _ hma
        · intro t f p h1 h2
          apply maskMA_mono
          rw [hbase_ma]
          exact maskMA_flips _ _ _ _ _ _ h1 h2
        · intro t f p hma
          rcases maskMA_src _ _ _ _ _ _ hma with hx | ⟨hx1, hx2⟩
          · rw [hbase_ma] at hx
            rcases maskMA_src _ _ _ _ _ _ hx with hy | ⟨hy1, hy2⟩
            · exact Or.inl hy
            · exact Or.inr hy2
          · exact Or.inr hx2
      · refine ⟨hbase_ms, ?_, ?_, ?_, hd1, hd2, hd3⟩
        · intro t f p hma
          show (maskMA (stepFlag record ins c) _ _).maMask t f p = true
          apply maskMA_mono
          rw [hbase_ma]
          exact maskMA_mono _ _ _ _ _ _ hma
        · intro t f p h1 h2
          show (maskMA (stepFlag record ins c) _ _).maMask t f p = true
          apply maskMA_mono
          rw [hbase_ma]
          exact maskMA_flips _ _ _ _ _ _ h1 h2
        · intro t f p hma
          have hma2 : (maskMA (stepFlag record ins c)
              ⟨0, (stepFlag record ins c).Ntimes⟩ (stepEvent c).f).maMask t f p =
                true := hma
          rcases maskMA_src _ _ _ _ _ _ hma2 with hx | ⟨hx1, hx2⟩
          · rw [hbase_ma] at hx
            rcases maskMA_src _ _ _ _ _ _ hx with hy | ⟨hy1, hy2⟩
            · exact Or.inl hy
            · exact Or.inr hy2
          · exact Or.inr hx2
    by_cases hs : (sampF && !(decide (mf.N_samp_thresh = 0))) = true
    · rw [if_pos hs] at h
      rcases hsamp : applySampThreshTest mf (stepFlag record ins c) (stepEvent c)
        record with ⟨i4s, oev, oerr⟩
      rcases oerr with _ | e
      · rw [hsamp] at h
        dsimp only at h
        rw [finishIter_false] at h
        have hi : i = recompute i4s c.f := by
          have := congrArg Prod.fst h
          simp at this
          exact this.symm
        have hres := samp_result mf (stepFlag record ins c) (stepEvent c) record
        rw [hsamp] at hres
        simp only at hres
        exact ⟨c, i4s, rfl, hi, hflag i4s hres⟩
      · rw [hsamp] at h
        dsimp only at h
        simp at h
    · rw [if_neg hs] at h
      rw [finishIter_false] at h
      have hi : i = recompute (stepFlag record ins c) c.f := by
        have := congrArg Prod.fst h
        simp at this
        exact this.symm
      exact ⟨c, stepFlag record ins c, rfl, hi,
        hflag (stepFlag record ins c) (Or.inl rfl)⟩

end SSINS

namespace SSINS

theorem maskMS_msMask (ins : INS) (fs : Slice) (t f p : Nat) :
    (maskMS ins fs).msMask t f p =
      if inSlc fs f then true else ins.msMask t f p := rfl

theorem meanSubtract_msMask (ins : INS) (fs : Slice) (t f p : Nat) :
    (meanSubtract ins fs).msMask t f p =
      if inSlc fs f then ins.maMask t f p else ins.msMask t f p := rfl

theorem step_flag_increase (mf : MFState) (record sampF : Bool) (ins i : INS)
    (hT : 0 < ins.Ntimes) (hF : 0 < ins.Nfreqs) (hP : 0 < ins.Npols)
    (hinv : maskDiscipline ins)
    (h : matchTestStep mf record sampF false ins = (i, .again)) :
    flaggedCount ins < flaggedCount i := by
  obtain ⟨c, i4, hm, hi, hms, hmono, hflip, hloc, hd1, hd2, hd3⟩ :=
    step_again_noB mf record sampF ins i h
  obtain ⟨t, f, p, ht, hf, hp, hct, hcf, hunm⟩ := champ_cell mf ins c hT hF hP hm
  have hma : ins.maMask t f p = false := by
    by_cases hx : ins.maMask t f p = true
    · have hcontra := hinv t ht f hf p hp hx
      rw [hunm] at hcontra
      simp at hcontra
    · simpa using hx
  have hlt : flaggedCount ins < flaggedCount i4 :=
    flagged_lt ins i4 hd1 hd2 hd3 hmono t f p ht hf hp hma (hflip t f p hct hcf)
  rw [hi, flagged_recompute]
  exact hlt

theorem step_discipline (mf : MFState) (record sampF : Bool) (ins i : INS)
    (hinv : maskDiscipline ins)
    (h : matchTestStep mf record sampF false ins = (i, .again)) :
    maskDiscipline i := by
  obtain ⟨c, i4, hm, hi, hms, hmono, hflip, hloc, hd1, hd2, hd3⟩ :=
    step_again_noB mf record sampF ins i h
  subst hi
  intro t ht f hf p hp hma
  obtain ⟨hr1, hr2, hr3⟩ := recompute_dims i4 c.f
  rw [hr1, hd1] at ht
  rw [hr2, hd2] at hf
  rw [hr3, hd3] at hp
  rw [recompute_maMask] at hma
  unfold recompute
  by_cases hall : (!(allMaskedP0 i4 c.f)) = true
  · rw [if_pos hall, meanSubtract_msMask]
    by_cases hin : inSlc c.f f = true
    · rw [if_pos hin]
      exact hma
    · rw [if_neg hin, hms]
      rcases hloc t f p hma with hx | hx
      · exact hinv t ht f hf p hp hx
      · exact absurd hx hin
  · rw [if_neg hall, maskMS_msMask]
    by_cases hin : inSlc c.f f = true
    · rw [if_pos hin]
    · rw [if_neg hin, hms]
      rcases hloc t f p hma with hx | hx
      · exact hinv t ht f hf p hp hx
      · exact absurd hx hin

theorem step_dims_noB (mf : MFState) (record sampF : Bool) (ins i : INS)
    (h : matchTestStep mf record sampF false ins = (i, .again)) :
    i.Ntimes = ins.Ntimes ∧ i.Nfreqs = ins.Nfreqs ∧ i.Npols = ins.Npols := by
  obtain ⟨c, i4, hm, hi, hms, hmono, hflip, hloc, hd1, hd2, hd3⟩ :=
    step_again_noB mf record sampF ins i h
  obtain ⟨hr1, hr2, hr3⟩ := recompute_dims i4 c.f
  subst hi
  exact ⟨hr1.trans hd1, hr2.trans hd2, hr3.trans hd3⟩

theorem samp_err_name (mf : MFState) (ins : INS) (ev : Event4) (r : Bool)
    (e : String) (h : (applySampThreshTest mf ins ev r).2.2 = some e) :
    e = "ValueError" ∨ e = "ZeroDivisionError" ∨ e = "UnboundLocalError" := by
  unfold applySampThreshTest at h
  revert h
  split_ifs <;> (try dsimp only) <;> (try split_ifs) <;> intro h <;> simp at h <;>
    tauto

theorem step_err_noB (mf : MFState) (record sampF : Bool) (ins i : INS)
    (e : String) (h : matchTestStep mf record sampF false ins = (i, .err e)) :
    ¬(e = "fuel") := by
  unfold matchTestStep at h
  rcases hm : matchTest mf ins with _ | c
  · rw [hm] at h
    simp at h
  · rw [hm] at h
    dsimp only at h
    by_cases hs : (sampF && !(decide (mf.N_samp_thresh = 0))) = true
    · rw [if_pos hs] at h
      rcases hsamp : applySampThreshTest mf (stepFlag record ins c) (stepEvent c)
        record with ⟨i4s, oev, oerr⟩
      rcases oerr with _ | e2
      · rw [hsamp] at h
        dsimp only at h
        rw [finishIter_false] at h
        simp at h
      · rw [hsamp] at h
        dsimp only at h
        have he : e2 = e := by
          injection h with h1 h2
          injection h2 with h3
        have hname := samp_err_name mf (stepFlag record ins c) (stepEvent c)
          record e2 (by rw [hsamp])
        subst he
        rcases hname with hn | hn | hn <;> (subst hn; decide)
    · rw [if_neg hs] at h
      rw [finishIter_false] at h
      simp at h

theorem applyFuel_completes (mf : MFState) (record sampF : Bool) :
    ∀ (k : Nat) (ins : INS), maskDiscipline ins →
      0 < ins.Ntimes → 0 < ins.Nfreqs → 0 < ins.Npols →
      totalCells ins + 1 ≤ flaggedCount ins + k →
      (applyFuel mf record sampF false k ins).2 ≠ some "fuel" := by
  intro k
  induction k with
  | zero =>
    intro ins hinv hT hF hP hk
    exfalso
    have hle : flaggedCount ins ≤ totalCells ins := List.countP_le_length _
    omega
  | succ k ih =>
    intro ins hinv hT hF hP hk
    unfold applyFuel
    rcases hstep : matchTestStep mf record sampF false ins with ⟨i, res⟩
    rcases res with _ | _ | e
    · dsimp only
      simp
    · dsimp only
      have hlt := step_flag_increase mf record sampF ins i hT hF hP hinv hstep
      have hinv2 := step_discipline mf record sampF ins i hinv hstep
      obtain ⟨hd1, hd2, hd3⟩ := step_dims_noB mf record sampF ins i hstep
      have htot : totalCells i = totalCells ins := by
        unfold totalCells allIdx
        rw [hd1, hd2, hd3]
      refine ih i hinv2 ?_ ?_ ?_ ?_
      · rw [hd1]; exact hT
      · rw [hd2]; exact hF
      · rw [hd3]; exact hP
      · omega
    · dsimp only
      intro hcon
      simp at hcon
      exact step_err_noB mf record sampF ins i e hstep hcon

end SSINS

namespace SSINS

theorem matchTest_backfill (mf : MFState) (ins : INS) :
    matchTest mf (backfill ins) = matchTest mf ins := rfl

theorem backfill_idem (ins : INS) : backfill (backfill ins) = backfill ins := by
  unfold backfill
  congr 1
  funext t f p
  by_cases hm : ins.msMask t f p = true
  · simp [hm]
  · simp [hm]

theorem finishIter_not_done (mf : MFState) (record broadF : Bool) (ins : INS)
    (ev : Event4) (fmax : Slice) :
    ¬((finishIter mf record broadF ins ev fmax).2 = .done) := by
  unfold finishIter
  by_cases hb : broadF = true
  · rw [if_pos hb]
    rcases hfb : freqBroadcast mf ins ev record with ⟨i5, oe⟩
    rcases oe with _ | e <;> simp
  · rw [if_neg hb]
    simp

theorem step_done (mf : MFState) (record sampF broadF : Bool) (ins i : INS)
    (h : matchTestStep mf record sampF broadF ins = (i, .done)) :
    i = ins ∧ matchTest mf ins = none := by
  unfold matchTestStep at h
  rcases hm : matchTest mf ins with _ | c
  · rw [hm] at h
    dsimp only at h
    refine ⟨?_, rfl⟩
    have := congrArg Prod.fst h
    simpa using this.symm
  · exfalso
    rw [hm] at h
    dsimp only at h
    by_cases hs : (sampF && !(decide (mf.N_samp_thresh = 0))) = true
    · rw [if_pos hs] at h
      rcases hsamp : applySampThreshTest mf (stepFlag record ins c) (stepEvent c)
        record with ⟨i4s, oev, oerr⟩
      rcases oerr with _ | e
      · rw [hsamp] at h
        dsimp only at h
        refine finishIter_not_done mf record broadF i4s (oev.getD (stepEvent c))
          c.f ?_
        rw [h]
      · rw [hsamp] at h
        dsimp only at h
        have := congrArg Prod.snd h
        simp at this
    · rw [if_neg hs] at h
      refine finishIter_not_done mf record broadF (stepFlag record ins c)
        (stepEvent c) c.f ?_
      rw [h]

theorem applyFuel_done (mf : MFState) (record sampF broadF : Bool) :
    ∀ (k : Nat) (ins s' : INS),
      applyFuel mf record sampF broadF k ins = (s', none) →
      matchTest mf s' = none ∧ backfill s' = s' := by
  intro k
  induction k with
  | zero =>
    intro ins s' h
    unfold applyFuel at h
    simp at h
  | succ k ih =>
    intro ins s' h
    unfold applyFuel at h
    rcases hstep : matchTestStep mf record sampF broadF ins with ⟨i, res⟩
    rw [hstep] at h
    rcases res with _ | _ | e
    · dsimp only at h
      obtain ⟨hidone, hm⟩ := step_done mf record sampF broadF ins i hstep
      have hs' : s' = backfill i := by
        have := congrArg Prod.fst h
        simpa using this.symm
      subst hs'
      subst hidone
      refine ⟨?_, backfill_idem _⟩
      rw [matchTest_backfill]
      exact hm
    · dsimp only at h
      exact ih i s' h
    · dsimp only at h
      simp at h

theorem applyFuel_fix (mf : MFState) (record sampF broadF : Bool) (k : Nat)
    (s' : INS) (h1 : matchTest mf s' = none) (h2 : backfill s' = s') :
    applyFuel mf record sampF broadF (k + 1) s' = (s', none) := by
  have hstep : matchTestStep mf record sampF broadF s' = (s', .done) := by
    unfold matchTestStep
    rw [h1]
  unfold applyFuel
  rw [hstep]
  dsimp only
  rw [h2]

end SSINS

namespace SSINS

theorem step_mono (mf : MFState) (record sampF broadF : Bool) (ins : INS)
    (t f p : Nat) (h : ins.maMask t f p = true) :
    (matchTestStep mf record sampF broadF ins).1.maMask t f p = true := by
  unfold matchTestStep
  rcases hm : matchTest mf ins with _ | c
  · exact h
  · dsimp only
    have hflag : (stepFlag record ins c).maMask t f p = true := by
      rw [stepFlag_maMask]
      exact maskMA_mono _ _ _ _ _ _ h
    have hfin : ∀ (j : INS) (ev : Event4), j.maMask t f p = true →
        (finishIter mf record broadF j ev c.f).1.maMask t f p = true := by
      intro j ev hj
      unfold finishIter
      by_cases hb : broadF = true
      · rw [if_pos hb]
        rcases hfb : freqBroadcast mf j ev record with ⟨i5, oe⟩
        have hi5 : i5.maMask t f p = true := by
          have := freqB_mono mf j ev record t f p hj
          rw [hfb] at this
          exact this
        rcases oe with _ | e
        · dsimp only
          rw [recompute_maMask]
          exact hi5
        · exact hi5
      · rw [if_neg hb]
        dsimp only
        rw [recompute_maMask]
        exact hj
    by_cases hs : (sampF && !(decide (mf.N_samp_thresh = 0))) = true
    · rw [if_pos hs]
      rcases hsamp : applySampThreshTest mf (stepFlag record ins c) (stepEvent c)
        record with ⟨i4s, oev, oerr⟩
      have hi4 : i4s.maMask t f p = true := by
        have := samp_mono mf (stepFlag record ins c) (stepEvent c) record t f p
          hflag
        rw [hsamp] at this
        exact this
      rcases oerr with _ | e
      · dsimp only
        exact hfin i4s _ hi4
      · dsimp only
        exact hi4
    · rw [if_neg hs]
      exact hfin (stepFlag record ins c) _ hflag

theorem applyFuel_mono (mf : MFState) (record sampF broadF : Bool) :
    ∀ (k : Nat) (ins : INS) (t f p : Nat), ins.maMask t f p = true →
      (applyFuel mf record sampF broadF k ins).1.maMask t f p = true := by
  intro k
  induction k with
  | zero =>
    intro ins t f p h
    exact h
  | succ k ih =>
    intro ins t f p h
    unfold applyFuel
    rcases hstep : matchTestStep mf record sampF broadF ins with ⟨i, res⟩
    have hi : i.maMask t f p = true := by
      have := step_mono mf record sampF broadF ins t f p h
      rw [hstep] at this
      exact this
    rcases res with _ | _ | e
    · dsimp only
      exact hi
    · dsimp only
      exact ih i t f p hi
    · dsimp only
      exact hi

theorem runOp_mono (mf : MFState) (ins : INS) (op : FilterOp) (t f p : Nat)
    (h : ins.maMask t f p = true) : (runOp mf ins op).maMask t f p = true := by
  cases op with
  | matchT => exact h
  | applyMatch r s b =>
    unfold runOp applyMatchTest
    exact applyFuel_mono mf r s b _ ins t f p h
  | sampT ev r => exact samp_mono mf ins ev r t f p h
  | broadcast ev r => exact freqB_mono mf ins ev r t f p h

theorem abs_le_of_key_le (a b : ℚ)
    (h : (⟨|a|, 1⟩ : SigV).key ≤ (⟨|b|, 1⟩ : SigV).key) : |a| ≤ |b| := by
  unfold SigV.key at h
  simp only [Nat.cast_one, mul_one] at h
  by_contra hc
  push_neg at hc
  have := mul_self_lt_mul_self (abs_nonneg b) hc
  linarith

theorem bcast_fold_skip (mf : MFState) (ev : Event4) (r : Bool)
    (l : List (String × Slice))
    (hdis : ∀ sb ∈ l, (slcSet ev.f).any (fun i => (slcSet sb.2).contains i) = false) :
    ∀ acc : INS, l.foldl (bcastStep mf ev r) acc = acc := by
  induction l with
  | nil => intro acc; rfl
  | cons sb l ih =>
    intro acc
    rw [List.foldl_cons]
    have hstep : bcastStep mf ev r acc sb = acc := by
      unfold bcastStep
      have h0 := hdis sb (List.mem_cons_self _ _)
      rw [if_neg (by rw [h0]; simp)]
    rw [hstep]
    exact ih (fun x hx => hdis x (List.mem_cons_of_mem _ hx)) acc

end SSINS

namespace SSINS

/-- C1: the claim says every configuration free of the listed errors
    constructs successfully, resolving the sub-band map through the Shape
    Resolver with narrow disabled.  In this source it cannot: line 67 passes
    `check_overlap=True` to the `_shape_slicer` whose line-72 signature
    accepts no such keyword, so after the empty-shape and threshold checks
    pass, construction raises a TypeError.  This theorem evaluates the
    embedded constructor on a fully valid default configuration. -/
theorem C1_init_raises_type_error :
    mfInit [100, 200] (.scalar 5) [] 0 true true (some []) false =
      .error "TypeError: unexpected keyword argument check_overlap" := rfl

/-- C2: when the sample-threshold test triggers with event recording off,
    lines 216-225 never assign `new_event` (the assignment on line 219 is
    under `if event_record`), so `return(new_event)` raises an
    UnboundLocalError instead of returning the derived event - against the
    claim and the function's own docstring.  Evaluated at a concrete
    failing input: threshold 2 = Ntimes, one of two times already flagged,
    a single-channel event, recording off. -/
theorem C2_samp_thresh_unbound_local :
    (applySampThreshTest exMFsamp exInsSamp exEvSamp false).2.2 =
      some "UnboundLocalError" := by decide

/-- C3 counterexample: invoked with an empty-but-present sub-band map, the
    Frequency Broadcaster raises nothing and mutates nothing - line 237
    only checks `broadcast_dict is None`, and an empty dict is not None -
    contradicting the claim that an empty sub-band map raises a
    configuration error. -/
theorem C3_counterexample :
    exMFempty.broadcast_dict = some [] ∧
      freqBroadcast exMFempty exIns1 exEvSamp true = (exIns1, none) :=
  ⟨rfl, rfl⟩

/-- C3 (amended): the broadcaster raises its configuration error exactly
    when the sub-band map is absent (None); with a present sub-band map -
    empty or not - whose resolved sub-bands all share no channel index with
    the event's channel range, it returns without error and with the
    NoiseSpectrum unchanged (no mask or event-log mutation). -/
theorem C3_amended_broadcast (mf : MFState) (ins : INS) (ev : Event4)
    (record : Bool) :
    (mf.broadcast_dict = none →
      freqBroadcast mf ins ev record = (ins, some "ValueError")) ∧
    (mf.broadcast_dict ≠ none →
      (∀ sb ∈ mf.broadcast_slc_dict,
        (slcSet ev.f).any (fun i => (slcSet sb.2).contains i) = false) →
      freqBroadcast mf ins ev record = (ins, none)) := by
  constructor
  · intro h
    unfold freqBroadcast
    rw [if_pos h]
  · intro h hdis
    unfold freqBroadcast
    rw [if_neg h]
    rw [bcast_fold_skip mf ev record mf.broadcast_slc_dict hdis ins]

/-- Witness for the amended C3: a filter without a sub-band map errors, and
    one with an empty map returns the state unchanged. -/
theorem C3_amended_broadcast_witness :
    freqBroadcast exMFnb exIns1 exEvSamp true = (exIns1, some "ValueError") ∧
      freqBroadcast exMFempty exIns1 exEvSamp false = (exIns1, none) :=
  ⟨(C3_amended_broadcast exMFnb exIns1 exEvSamp true).1 rfl,
   (C3_amended_broadcast exMFempty exIns1 exEvSamp false).2 (by decide)
     (by decide)⟩

/-- C5 counterexample: with frequency broadcasting enabled, broadcast flags
    land on channels whose metric_ms is never recomputed (line 185 only
    recomputes f_max), so a later pass can elect a stale champion whose
    cells are already flagged.  Starting from a clean, discipline-obeying
    cube, the second pass is not the final one and yet leaves the
    flagged-cell count unchanged - against the claim that every loop pass
    strictly increases it or is final. -/
theorem C5_counterexample :
    maskDiscipline exInsC5 ∧
      (matchTestStep exMFb false false true exInsC5).2 = .again ∧
      (matchTestStep exMFb false false true
        (matchTestStep exMFb false false true exInsC5).1).2 = .again ∧
      flaggedCount (matchTestStep exMFb false false true
          (matchTestStep exMFb false false true exInsC5).1).1 =
        flaggedCount (matchTestStep exMFb false false true exInsC5).1 :=
  ⟨by decide, by decide, by decide, by decide⟩

/-- C5 (amended): with freq_broadcast disabled, on a nonempty cube whose
    NoiseSpectrum obeys the masking discipline, every non-final successful
    pass of the apply_match_test loop strictly increases the flagged-cell
    count, and hence the loop terminates within cellcount+1 passes (the
    fuel marker is never returned). -/
theorem C5_amended_termination (mf : MFState) (record sampF : Bool)
    (ins : INS) (hT : 0 < ins.Ntimes) (hF : 0 < ins.Nfreqs)
    (hP : 0 < ins.Npols) (hinv : maskDiscipline ins) :
    (∀ i, matchTestStep mf record sampF false ins = (i, .again) →
      flaggedCount ins < flaggedCount i) ∧
    (applyMatchTest mf record sampF false ins).2 ≠ some "fuel" := by
  constructor
  · intro i h
    exact step_flag_increase mf record sampF ins i hT hF hP hinv h
  · unfold applyMatchTest
    exact applyFuel_completes mf record sampF (totalCells ins + 1) ins hinv
      hT hF hP (by omega)

/-- Witness for the amended C5: with broadcasting off, the first pass on
    the concrete cube strictly increases the flag count and the loop
    completes. -/
theorem C5_amended_termination_witness :
    flaggedCount exInsC5 <
      flaggedCount (matchTestStep exMFnb false false false exInsC5).1 ∧
    (applyMatchTest exMFnb false false false exInsC5).2 ≠ some "fuel" := by
  have hth := C5_amended_termination exMFnb false false exInsC5 (by decide)
    (by decide) (by decide) (by decide)
  refine ⟨?_, hth.2⟩
  refine hth.1 (matchTestStep exMFnb false false false exInsC5).1 ?_
  have h2 : (matchTestStep exMFnb false false false exInsC5).2 = .again := by
    decide
  rw [← h2]

/-- C6: across any sequence of filter operations (match_test mutates
    nothing; apply_match_test, the sample-threshold test and the broadcaster
    only assign masked), a flagged cell of metric_array stays flagged. -/
theorem C6_mask_monotone (mf : MFState) (ops : List FilterOp) :
    ∀ (ins : INS) (t f p : Nat), ins.maMask t f p = true →
      (runOps mf ops ins).maMask t f p = true := by
  induction ops with
  | nil =>
    intro ins t f p h
    exact h
  | cons op ops ih =>
    intro ins t f p h
    show ((op :: ops).foldl (runOp mf) ins).maMask t f p = true
    rw [List.foldl_cons]
    exact ih (runOp mf ins op) t f p (runOp_mono mf ins op t f p h)

/-- Witness: the pre-flagged cell of exInsFlag survives a full
    apply_match_test, a sample-threshold test and a broadcast attempt. -/
theorem C6_mask_monotone_witness :
    (runOps exMF1 [.applyMatch true false false, .sampT exEvSamp true,
      .broadcast exEvSamp true] exInsFlag).maMask 0 0 0 = true :=
  C6_mask_monotone exMF1 _ exInsFlag 0 0 0 (by decide)

end SSINS

namespace SSINS

/-- C4: match_test computes per-shape candidates and is the sentinel
    exactly when no shape has an eligible candidate (one whose significance
    strictly exceeds its own threshold); any returned champion is an
    eligible candidate of some configured shape and its raw significance is
    greatest among all eligible candidates (significances |m|*sqrt(n) are
    compared through their exact squares m*m*n); and for a non-narrow shape
    with a positive threshold, the candidate location chosen by maximising
    rawSignificance/threshold also maximises the raw significance, the
    reported significance being the raw per-(time, polarization) value
    |mean over unmasked channels| * sqrt(count) at that location. -/
theorem C4_match_test_selection (mf : MFState) (ins : INS)
    (hT : 0 < ins.Ntimes) (hP : 0 < ins.Npols) :
    (matchTest mf ins = none ↔
      ∀ e ∈ mf.slice_dict, ∀ sv, ¬ elig mf ins e sv) ∧
    (∀ c, matchTest mf ins = some c →
      (∃ e ∈ mf.slice_dict, c.shape = e.1 ∧
        shapeCandidate mf ins e.1 e.2 = (c.t, c.f, some c.sig) ∧
        sigGtThresh c.sig (mf.sig_thresh e.1) = true) ∧
      (∀ e ∈ mf.slice_dict, ∀ sv, elig mf ins e sv → sv.key ≤ c.sig.key)) ∧
    (∀ sh slc, ¬(sh = "narrow") → 0 < mf.sig_thresh sh →
      ∃ t0 p0, t0 < ins.Ntimes ∧ p0 < ins.Npols ∧
        shapeCandidate mf ins sh (some slc) =
          (⟨t0, t0 + 1⟩, slc, slicedSig ins slc t0 p0) ∧
        ∀ t2 < ins.Ntimes, ∀ p2 < ins.Npols, ∀ sv2,
          slicedSig ins slc t2 p2 = some sv2 →
            ∃ sv0, slicedSig ins slc t0 p0 = some sv0 ∧ sv2.key ≤ sv0.key) := by
  refine ⟨?_, ?_, ?_⟩
  · constructor
    · intro h
      exact ((matchFold_none mf ins mf.slice_dict none).mp h).2
    · intro h
      exact (matchFold_none mf ins mf.slice_dict none).mpr ⟨rfl, h⟩
  · intro c hc
    constructor
    · rcases matchFold_split mf ins mf.slice_dict none c hc with
        hx | ⟨l1, e, l2, hl, h1, h2, h3, h4⟩
      · exact absurd hx (by simp)
      · refine ⟨e, ?_, h1, h2, h3⟩
        rw [hl]
        exact List.mem_append.mpr (Or.inr (List.mem_cons_self _ _))
    · exact (matchFold_max mf ins mf.slice_dict none c hc).2
  · intro sh slc hsh hthr
    exact generic_candidate mf ins sh slc hsh hthr hT hP

/-- Witness for C4 at a concrete filter and cube: the sentinel case of the
    first conjunct. -/
theorem C4_match_test_selection_witness :
    matchTest exMF1 exIns1 = none ↔
      ∀ e ∈ exMF1.slice_dict, ∀ sv, ¬ elig exMF1 exIns1 e sv :=
  (C4_match_test_selection exMF1 exIns1 (by decide) (by decide)).1

/-- C7: when apply_match_test completes normally, match_test on the
    resulting state returns the sentinel (the loop only exits on a
    sentinel, and the closing backfill of lines 188-189 does not touch
    metric_ms), and a second full run returns that state unchanged: its
    single pass sees the sentinel at once and its backfill is idempotent. -/
theorem C7_idempotent_convergence (mf : MFState) (record sampF broadF : Bool)
    (ins s2 : INS)
    (h : applyMatchTest mf record sampF broadF ins = (s2, none)) :
    matchTest mf s2 = none ∧
      applyMatchTest mf record sampF broadF s2 = (s2, none) := by
  obtain ⟨h1, h2⟩ := applyFuel_done mf record sampF broadF
    (totalCells ins + 1) ins s2 h
  refine ⟨h1, ?_⟩
  unfold applyMatchTest
  exact applyFuel_fix mf record sampF broadF (totalCells s2) s2 h1 h2

/-- Witness for C7: a below-threshold cube completes at once and the final
    state yields the sentinel. -/
theorem C7_idempotent_convergence_witness :
    matchTest exMF1 (applyMatchTest exMF1 true false false exIns1).1 = none := by
  have h2 : (applyMatchTest exMF1 true false false exIns1).2 = none := by decide
  exact (C7_idempotent_convergence exMF1 true false false exIns1
    (applyMatchTest exMF1 true false false exIns1).1 (by rw [← h2])).1

/-- C8: whenever some cell of the cube is unmasked, the narrow candidate is
    a single-time, single-channel, single-polarization cell of maximal
    absolute metric_ms value among the unmasked cells, and its significance
    is that absolute value itself (the pair (value, 1) encodes
    value * sqrt 1). -/
theorem C8_narrow_shape (mf : MFState) (ins : INS) (oslc : Option Slice)
    (hT : 0 < ins.Ntimes) (hF : 0 < ins.Nfreqs) (hP : 0 < ins.Npols)
    (hex : ∃ t2, t2 < ins.Ntimes ∧ ∃ f2, f2 < ins.Nfreqs ∧
      ∃ p2, p2 < ins.Npols ∧ ins.msMask t2 f2 p2 = false) :
    ∃ t f p, t < ins.Ntimes ∧ f < ins.Nfreqs ∧ p < ins.Npols ∧
      ins.msMask t f p = false ∧
      shapeCandidate mf ins "narrow" oslc =
        (⟨t, t + 1⟩, ⟨f, f + 1⟩, some ⟨|ins.msVal t f p|, 1⟩) ∧
      ∀ t2 < ins.Ntimes, ∀ f2 < ins.Nfreqs, ∀ p2 < ins.Npols,
        ins.msMask t2 f2 p2 = false →
          |ins.msVal t2 f2 p2| ≤ |ins.msVal t f p| := by
  obtain ⟨t, f, p, ht, hf, hp, hcand, hmax, hunm⟩ :=
    narrow_sh_candidate mf ins oslc hT hF hP
  have hu := hunm hex
  refine ⟨t, f, p, ht, hf, hp, hu, ?_, ?_⟩
  · rw [hcand, hu]
    simp
  · intro t2 ht2 f2 hf2 p2 hp2 hunm2
    exact abs_le_of_key_le _ _ (hmax hu t2 ht2 f2 hf2 p2 hp2 hunm2)

/-- Witness for C8 on the concrete one-cell cube. -/
theorem C8_narrow_shape_witness :
    ∃ t f p, t < exIns1.Ntimes ∧ f < exIns1.Nfreqs ∧ p < exIns1.Npols ∧
      exIns1.msMask t f p = false ∧
      shapeCandidate exMF1 exIns1 "narrow" none =
        (⟨t, t + 1⟩, ⟨f, f + 1⟩, some ⟨|exIns1.msVal t f p|, 1⟩) ∧
      ∀ t2 < exIns1.Ntimes, ∀ f2 < exIns1.Nfreqs, ∀ p2 < exIns1.Npols,
        exIns1.msMask t2 f2 p2 = false →
          |exIns1.msVal t2 f2 p2| ≤ |exIns1.msVal t f p| :=
  C8_narrow_shape exMF1 exIns1 none (by decide) (by decide) (by decide)
    ⟨0, by decide, 0, by decide, 0, by decide, by decide⟩

/-- C9: over a nonempty axis and an ordered interval, the resolver includes
    a shape exactly when some axis value is at or below the lower bound or
    some axis value is at or above the upper bound (equivalently min(axis)
    is at most lo or max(axis) at least hi), silently omitting it otherwise;
    an included shape's range is built from the first nearest channels to
    each bound, with the lower edge decremented when its channel value
    exceeds lo (and the channel is positive) and the upper edge incremented
    when its channel value is at most hi. -/
theorem C9_shape_resolver (freq : List ℚ) (lo hi : ℚ) (hne : freq ≠ [])
    (hlh : lo ≤ hi) :
    ((resolveShape freq (lo, hi)).isSome = true ↔
      ((∃ x ∈ freq, x ≤ lo) ∨ (∃ x ∈ freq, hi ≤ x))) ∧
    (∀ s, resolveShape freq (lo, hi) = some s →
      ∃ cl ch, cl < freq.length ∧ ch < freq.length ∧
        (∀ j < freq.length, |nthD freq cl - lo| ≤ |nthD freq j - lo|) ∧
        (∀ j < freq.length, |nthD freq ch - hi| ≤ |nthD freq j - hi|) ∧
        s.start = (if 0 < nthD freq cl - lo ∧ 0 < cl then cl - 1 else cl) ∧
        s.stop = (if nthD freq ch - hi ≤ 0 then ch + 1 else ch)) := by
  have hmin : min lo hi = lo := min_eq_left hlh
  have hmax : max lo hi = hi := max_eq_right hlh
  have hlen : 0 < freq.length := List.length_pos.mpr hne
  have hcond : (freqMin freq ≤ lo ∨ hi ≤ freqMax freq) ↔
      ((∃ x ∈ freq, x ≤ lo) ∨ (∃ x ∈ freq, hi ≤ x)) := by
    constructor
    · rintro (h | h)
      · exact Or.inl ⟨freqMin freq, freqMin_mem freq hne, h⟩
      · exact Or.inr ⟨freqMax freq, freqMax_mem freq hne, h⟩
    · rintro (⟨x, hx, hxl⟩ | ⟨x, hx, hxh⟩)
      · exact Or.inl (le_trans (freqMin_le freq x hx) hxl)
      · exact Or.inr (le_trans hxh (freqMax_ge freq x hx))
  constructor
  · unfold resolveShape
    dsimp only
    rw [hmin, hmax]
    by_cases hc : freqMin freq ≤ lo ∨ hi ≤ freqMax freq
    · rw [if_pos hc]
      constructor
      · intro _
        exact hcond.mp hc
      · intro _
        simp
    · rw [if_neg hc]
      simp only [Option.isSome_none]
      constructor
      · intro hfalse
        exact absurd hfalse (by simp)
      · intro hr
        exact absurd (hcond.mpr hr) hc
  · intro s hs
    unfold resolveShape at hs
    dsimp only at hs
    rw [hmin, hmax] at hs
    by_cases hc : freqMin freq ≤ lo ∨ hi ≤ freqMax freq
    · rw [if_pos hc] at hs
      injection hs with hs
      obtain ⟨hb1, hb2⟩ := argminQ_spec freq.length
        (fun i => |nthD freq i - lo|) hlen
      obtain ⟨hb3, hb4⟩ := argminQ_spec freq.length
        (fun i => |nthD freq i - hi|) hlen
      refine ⟨argminQ freq.length (fun i => |nthD freq i - lo|),
        argminQ freq.length (fun i => |nthD freq i - hi|),
        hb1, hb3, hb2, hb4, ?_, ?_⟩
      · rw [← hs]
      · rw [← hs]
    · rw [if_neg hc] at hs
      exact absurd hs (by simp)

/-- Witness for C9 on a concrete two-channel axis and in-band interval. -/
theorem C9_shape_resolver_witness :
    (resolveShape [100, 200] ((120 : ℚ), (180 : ℚ))).isSome = true ↔
      ((∃ x ∈ [(100 : ℚ), 200], x ≤ 120) ∨ (∃ x ∈ [(100 : ℚ), 200], (180 : ℚ) ≤ x)) :=
  (C9_shape_resolver [100, 200] 120 180 (by decide) (by decide)).1

/-- C10: the champion of match_test originates from an entry of the
    configured shape table, and every eligible candidate of an entry
    iterated strictly before it has strictly smaller raw significance -
    line 146 replaces the running champion only on a strict increase, so an
    exact significance tie is resolved to the shape iterated first; and the
    configured order of the shape table built by the resolver is the
    explicit shapes in insertion order (coverage-failing ones omitted),
    then narrow, then streak. -/
theorem C10_tie_break (mf : MFState) (ins : INS) (c : Champ)
    (h : matchTest mf ins = some c) :
    (∃ l1 e l2, mf.slice_dict = l1 ++ e :: l2 ∧ c.shape = e.1 ∧
      shapeCandidate mf ins e.1 e.2 = (c.t, c.f, some c.sig) ∧
      (∀ e2 ∈ l1, ∀ sv2, elig mf ins e2 sv2 → sv2.key < c.sig.key)) ∧
    (∀ (freq : List ℚ) (d : List (String × (ℚ × ℚ))) (narrow streak : Bool),
      (shapeSlicer freq d narrow streak).map Prod.fst =
        (d.filterMap (fun e => (resolveShape freq e.2).map (fun _ => e.1)))
          ++ (if narrow then ["narrow"] else [])
          ++ (if streak then ["streak"] else [])) := by
  constructor
  · rcases matchFold_split mf ins mf.slice_dict none c h with
      hx | ⟨l1, e, l2, hl, h1, h2, h3, h4⟩
    · exact absurd hx (by simp)
    · refine ⟨l1, e, l2, hl, h1, h2, ?_⟩
      intro e2 he2 sv2 hel2
      rcases h4 with h4 | ⟨pb, hpb, hk⟩
      · exact absurd hel2 (((matchFold_none mf ins l1 none).mp h4).2 e2 he2 sv2)
      · exact lt_of_le_of_lt
          ((matchFold_max mf ins l1 none pb hpb).2 e2 he2 sv2 hel2) hk
  · intro freq d narrow streak
    unfold shapeSlicer
    rw [List.map_append, List.map_append]
    congr 1
    · congr 1
      · rw [List.map_filterMap]
        congr 1
        funext e
        rcases resolveShape freq e.2 with _ | s <;> rfl
      · cases narrow <;> rfl
    · cases streak <;> rfl

/-- Witness for C10 on the concrete exact tie: the champion is shape A,
    iterated first, and nothing before it has an eligible candidate. -/
theorem C10_tie_break_witness :
    ∃ l1 e l2, exMF10.slice_dict = l1 ++ e :: l2 ∧ exChamp10.shape = e.1 ∧
      shapeCandidate exMF10 exIns10 e.1 e.2 =
        (exChamp10.t, exChamp10.f, some exChamp10.sig) ∧
      (∀ e2 ∈ l1, ∀ sv2, elig exMF10 exIns10 e2 sv2 →
        sv2.key < exChamp10.sig.key) :=
  (C10_tie_break exMF10 exIns10 exChamp10 (by decide)).1

end SSINS
